import Mathlib

/-!
Verification of the process-group topology resolvers of
`internlm/core/context/process_group_initializer.py` and the optimizer
parameter-group splitter of `internlm/train/utils.py`.

The Python classes are embedded shallowly: the base-class fields become the
structure `ProcessGroupInitializer`; each subclass's `__init__` asserts become
a decidable check; each `init_dist_group` loop becomes a pure enumeration of
its ordered rank partitions plus an explicit state-passing run over a
`Transport` that logs every `dist.new_group` call.  Python's `range(a, b, s)`
is embedded as `pyRange`, its `zip(*rows)` as `pyZip`.
-/

/-- Embedding of Python `range(start, stop, step)` for `step > 0` (with
`step = 0` giving the empty list, a case the preconditions rule out):
the elements `start + k * step` for `k < ceil((stop - start) / step)`. -/
def pyRange (start stop step : Nat) : List Nat :=
  (List.range ((stop - start + step - 1) / step)).map (fun k => start + k * step)

/-- Minimum of the lengths of a list of rows (0 when there are no rows). -/
def minLen : List (List Nat) → Nat
  | [] => 0
  | [l] => l.length
  | l :: rest => Nat.min l.length (minLen rest)

/-- Embedding of Python `zip(*rows)` on lists of `Nat`: the `t`-th output is
the list of the `t`-th element of every row, for `t` below every row length. -/
def pyZip (rows : List (List Nat)) : List (List Nat) :=
  match rows with
  | [] => []
  | _ :: _ => (List.range (minLen rows)).map (fun t => rows.map (fun r => r.getD t 0))

/-- The parallel modes of `ParallelMode(Enum)` in the source. -/
inductive ParallelMode where
  | GLOBAL | DATA | MODEL | PIPELINE | TENSOR | ZERO1 | NETTEST | EXPERT | EXPERT_DATA | DUMMY
deriving DecidableEq, Repr

/-- The fields shared by every initializer (`ProcessGroupInitializer.__init__`). -/
structure ProcessGroupInitializer where
  rank : Nat
  world_size : Nat
  data_parallel_size : Nat
  pipeline_parallel_size : Nat
  tensor_parallel_size : Nat
  zero1_parallel_size : Nat
  nettest_parallel_size : Nat
  expert_parallel_size : Nat
deriving DecidableEq, Repr

namespace Initializer_Data

/-- The `assert` of `Initializer_Data.__init__`. -/
def checks (t : ProcessGroupInitializer) : Prop :=
  t.world_size % t.data_parallel_size = 0

instance (t : ProcessGroupInitializer) : Decidable (checks t) := by
  unfold checks; infer_instance

/-- The ordered partitions enumerated by `Initializer_Data.init_dist_group`:
group `i` is `[i + j * rank_num_per_dp_group for j in range(data_parallel_size)]`. -/
def groups (t : ProcessGroupInitializer) : List (List Nat) :=
  (List.range (t.world_size / t.data_parallel_size)).map
    (fun i => (List.range t.data_parallel_size).map
      (fun j => i + j * (t.world_size / t.data_parallel_size)))

end Initializer_Data

namespace Initializer_Model

/-- The `assert` of `Initializer_Model.__init__`. -/
def checks (t : ProcessGroupInitializer) : Prop :=
  t.world_size % (t.tensor_parallel_size * t.pipeline_parallel_size) = 0

instance (t : ProcessGroupInitializer) : Decidable (checks t) := by
  unfold checks; infer_instance

/-- The ordered partitions of `Initializer_Model.init_dist_group`:
group `i` is the contiguous block `[i * block + j for j in range(block)]`. -/
def groups (t : ProcessGroupInitializer) : List (List Nat) :=
  (List.range (t.world_size / (t.tensor_parallel_size * t.pipeline_parallel_size))).map
    (fun i => (List.range (t.tensor_parallel_size * t.pipeline_parallel_size)).map
      (fun j => i * (t.tensor_parallel_size * t.pipeline_parallel_size) + j))

end Initializer_Model

namespace Initializer_Pipeline

/-- The two `assert`s of `Initializer_Pipeline.__init__`. -/
def checks (t : ProcessGroupInitializer) : Prop :=
  t.world_size % t.data_parallel_size = 0 ∧
    (t.world_size / t.data_parallel_size) % t.pipeline_parallel_size = 0

instance (t : ProcessGroupInitializer) : Decidable (checks t) := by
  unfold checks; infer_instance

/-- The ordered partitions of `Initializer_Pipeline.init_dist_group`: for data
block `i` and stage offset `j`, `list(range(i*block + j, (i+1)*block, stage))`. -/
def groups (t : ProcessGroupInitializer) : List (List Nat) :=
  (List.range t.data_parallel_size).flatMap
    (fun i => (List.range ((t.world_size / t.data_parallel_size) / t.pipeline_parallel_size)).map
      (fun j => pyRange (i * (t.world_size / t.data_parallel_size) + j)
        ((i + 1) * (t.world_size / t.data_parallel_size))
        ((t.world_size / t.data_parallel_size) / t.pipeline_parallel_size)))

end Initializer_Pipeline

namespace Initializer_Tensor

/-- The `assert` of `Initializer_Tensor.__init__`. -/
def checks (t : ProcessGroupInitializer) : Prop :=
  t.world_size % t.tensor_parallel_size = 0

instance (t : ProcessGroupInitializer) : Decidable (checks t) := by
  unfold checks; infer_instance

/-- The ordered partitions of `Initializer_Tensor.init_dist_group`:
group `i` is `[i * tensor_parallel_size + j for j in range(tensor_parallel_size)]`. -/
def groups (t : ProcessGroupInitializer) : List (List Nat) :=
  (List.range (t.world_size / t.tensor_parallel_size)).map
    (fun i => (List.range t.tensor_parallel_size).map
      (fun j => i * t.tensor_parallel_size + j))

end Initializer_Tensor

namespace Initializer_Zero1

/-- The two `assert`s of `Initializer_Zero1.__init__`. -/
def checks (t : ProcessGroupInitializer) : Prop :=
  t.world_size % t.data_parallel_size = 0 ∧ t.world_size % t.zero1_parallel_size = 0

instance (t : ProcessGroupInitializer) : Decidable (checks t) := by
  unfold checks; infer_instance

/-- The ordered partitions of `Initializer_Zero1.init_dist_group`: for
dp slot `i` and zero group `j`,
`[i + (j * zero1_parallel_size + k) * rank_num_per_dp_group for k in range(zero1_parallel_size)]`. -/
def groups (t : ProcessGroupInitializer) : List (List Nat) :=
  (List.range (t.world_size / t.data_parallel_size)).flatMap
    (fun i => (List.range (t.data_parallel_size / t.zero1_parallel_size)).map
      (fun j => (List.range t.zero1_parallel_size).map
        (fun k => i + (j * t.zero1_parallel_size + k) * (t.world_size / t.data_parallel_size))))

end Initializer_Zero1

namespace Initializer_Nettest

/-- `Initializer_Nettest.__init__` asserts nothing. -/
def checks (_t : ProcessGroupInitializer) : Prop := True

instance (t : ProcessGroupInitializer) : Decidable (checks t) := by
  unfold checks; infer_instance

/-- The ordered partitions of `Initializer_Nettest.init_dist_group`: chunk `i`
collects `i * nettest_parallel_size + j` for `j < nettest_parallel_size`,
keeping only ranks below `world_size` (the last chunk may be truncated). -/
def groups (t : ProcessGroupInitializer) : List (List Nat) :=
  (List.range ((t.world_size + t.nettest_parallel_size - 1) / t.nettest_parallel_size)).map
    (fun i => ((List.range t.nettest_parallel_size).map
      (fun j => i * t.nettest_parallel_size + j)).filter (fun r => r < t.world_size))

end Initializer_Nettest

namespace Initializer_Expert

/-- The two `assert`s of `Initializer_Expert.__init__`. -/
def checks (t : ProcessGroupInitializer) : Prop :=
  t.world_size % (t.world_size / t.expert_parallel_size) = 0 ∧
    t.data_parallel_size = t.expert_parallel_size

instance (t : ProcessGroupInitializer) : Decidable (checks t) := by
  unfold checks; infer_instance

/-- The ordered partitions of `Initializer_Expert.init_dist_group`:
group `i` is `list(range(i, world_size, num_expert_parallel_group))`. -/
def groups (t : ProcessGroupInitializer) : List (List Nat) :=
  (List.range (t.world_size / t.expert_parallel_size)).map
    (fun i => pyRange i t.world_size (t.world_size / t.expert_parallel_size))

end Initializer_Expert

namespace Initializer_Expert_Data

/-- `Initializer_Expert_Data.__init__` asserts nothing. -/
def checks (_t : ProcessGroupInitializer) : Prop := True

instance (t : ProcessGroupInitializer) : Decidable (checks t) := by
  unfold checks; infer_instance

/-- Embedding of `Initializer_Expert_Data._get_expert_parallel_ranks`:
data-parallel groups are `range(i, world_size, model_parallel_size)`; each is
sliced at starts `range(0, data_parallel_size, expert_parallel_size)` into
expert-parallel chunks, and Python's `zip(*chunks)` of each slice list forms
the expert-data groups. -/
def _get_expert_parallel_ranks (t : ProcessGroupInitializer) :
    List (List Nat) × List (List Nat) :=
  let model_parallel_size := t.pipeline_parallel_size * t.tensor_parallel_size
  let data_parallel_groups :=
    (List.range model_parallel_size).map (fun i => pyRange i t.world_size model_parallel_size)
  let part := fun (dp_ranks : List Nat) =>
    (pyRange 0 t.data_parallel_size t.expert_parallel_size).map
      (fun i => (dp_ranks.drop i).take t.expert_parallel_size)
  (data_parallel_groups.flatMap part,
   data_parallel_groups.flatMap (fun dp_ranks => pyZip (part dp_ranks)))

end Initializer_Expert_Data

/-- One resolved axis; the spec's eight Axis Resolvers. -/
inductive Axis where
  | data | model | pipeline | tensor | zero1 | nettest | expert | expertData
deriving DecidableEq, Repr

/-- The partition families an axis enumerates: every axis has one family,
except ExpertData, which enumerates an expert family and an expert-data family. -/
def axisFamilies (ax : Axis) (t : ProcessGroupInitializer) : List (List (List Nat)) :=
  match ax with
  | .data => [Initializer_Data.groups t]
  | .model => [Initializer_Model.groups t]
  | .pipeline => [Initializer_Pipeline.groups t]
  | .tensor => [Initializer_Tensor.groups t]
  | .zero1 => [Initializer_Zero1.groups t]
  | .nettest => [Initializer_Nettest.groups t]
  | .expert => [Initializer_Expert.groups t]
  | .expertData =>
      [(Initializer_Expert_Data._get_expert_parallel_ranks t).1,
       (Initializer_Expert_Data._get_expert_parallel_ranks t).2]

/-- The per-axis `__init__` assertion, as one decidable proposition. -/
def axisChecks (ax : Axis) (t : ProcessGroupInitializer) : Prop :=
  match ax with
  | .data => Initializer_Data.checks t
  | .model => Initializer_Model.checks t
  | .pipeline => Initializer_Pipeline.checks t
  | .tensor => Initializer_Tensor.checks t
  | .zero1 => Initializer_Zero1.checks t
  | .nettest => Initializer_Nettest.checks t
  | .expert => Initializer_Expert.checks t
  | .expertData => Initializer_Expert_Data.checks t

instance (ax : Axis) (t : ProcessGroupInitializer) : Decidable (axisChecks ax t) := by
  cases ax <;> (unfold axisChecks; infer_instance)

/-! ## The transport and the stateful group construction

`dist.new_group` is embedded as an append to a log of created groups; a group
handle is the log index of its creation.  The backend string plays the role of
`dist.get_backend()`. -/

/-- The instrumented transport: the active backend and the log of every
`new_group(ranks, backend)` call made so far. -/
structure Transport where
  backend : String
  created : List (List Nat × String)
deriving DecidableEq, Repr

/-- `dist.new_group(ranks, backend=...)`: logs the call and returns a fresh
handle (the log index). -/
def new_group (tr : Transport) (ranks : List Nat) (backend : String) : Nat × Transport :=
  (tr.created.length, ⟨tr.backend, tr.created ++ [(ranks, backend)]⟩)

/-- The pair of handles one loop iteration constructs: the primary group on
the active backend and, when `use_cpu`, the gloo fallback — reusing the
primary handle when the active backend is already `"gloo"`. -/
def makeGroupPair (use_cpu : Bool) (ranks : List Nat) (tr : Transport) :
    (Nat × Option Nat) × Transport :=
  let p := new_group tr ranks tr.backend
  if use_cpu then
    if tr.backend ≠ "gloo" then
      let pc := new_group p.2 ranks "gloo"
      ((p.1, some pc.1), pc.2)
    else ((p.1, some p.1), p.2)
  else ((p.1, none), p.2)

/-- One registry entry: the tuple
`(local_rank, group_world_size, process_group, cpu_group, ranks_in_group, mode)`
that an `init_dist_group` call returns for the calling rank. -/
structure FullEntry where
  local_rank : Nat
  group_world_size : Nat
  process_group : Nat
  cpu_group : Option Nat
  ranks_in_group : List Nat
  mode : ParallelMode
deriving DecidableEq, Repr

/-- The loop of each single-result `init_dist_group`: construct every group in
order, and keep the tuple of the *last* partition containing `r` (later
iterations overwrite the local variables). -/
def runGroupsSel (r : Nat) (use_cpu : Bool) (mode : ParallelMode) :
    List (List Nat) → Transport → Option FullEntry × Transport
  | [], tr => (none, tr)
  | g :: rest, tr =>
    let p := makeGroupPair use_cpu g tr
    let rec_ := runGroupsSel r use_cpu mode rest p.2
    match rec_.1 with
    | some e => (some e, rec_.2)
    | none =>
      (if r ∈ g then
        some ⟨g.indexOf r, g.length, p.1.1, p.1.2, g, mode⟩
       else none, rec_.2)

/-- The loops of `Initializer_Expert_Data.init_dist_group`: construct every
group in order and *append* an entry for each partition containing `r`. -/
def runGroupsCollect (r : Nat) (use_cpu : Bool) (mode : ParallelMode) :
    List (List Nat) → Transport → List FullEntry × Transport
  | [], tr => ([], tr)
  | g :: rest, tr =>
    let p := makeGroupPair use_cpu g tr
    let rec_ := runGroupsCollect r use_cpu mode rest p.2
    ((if r ∈ g then
        [⟨g.indexOf r, g.length, p.1.1, p.1.2, g, mode⟩]
      else []) ++ rec_.1, rec_.2)

/-- The `ParallelMode` each axis's entries carry. -/
def axisMode (ax : Axis) : ParallelMode :=
  match ax with
  | .data => .DATA
  | .model => .MODEL
  | .pipeline => .PIPELINE
  | .tensor => .TENSOR
  | .zero1 => .ZERO1
  | .nettest => .NETTEST
  | .expert => .EXPERT
  | .expertData => .EXPERT_DATA

/-- The body of each axis's `init_dist_group`, run after the constructor's
asserts passed: the list of registry entries for the calling rank (one for the
single-result axes; one per expert and per expert-data partition containing
the rank for ExpertData) together with the final transport. -/
def axisInitRun (ax : Axis) (t : ProcessGroupInitializer) (use_cpu : Bool)
    (tr : Transport) : List FullEntry × Transport :=
  match ax with
  | .expertData =>
    let eps := (Initializer_Expert_Data._get_expert_parallel_ranks t).1
    let eds := (Initializer_Expert_Data._get_expert_parallel_ranks t).2
    let r1 := runGroupsCollect t.rank use_cpu .EXPERT eps tr
    let r2 := runGroupsCollect t.rank use_cpu .EXPERT_DATA eds r1.2
    (r1.1 ++ r2.1, r2.2)
  | _ =>
    let r1 := runGroupsSel t.rank use_cpu (axisMode ax) ((axisFamilies ax t).flatten) tr
    (r1.1.toList, r1.2)

/-- The failure every precondition violation raises: the spec's
`ConfigurationError` (the source's `assert` in `__init__`). -/
structure ConfigurationError : Type
deriving DecidableEq, Repr

/-- Constructing an axis's initializer and calling `init_dist_group`: the
constructor's asserts run first, so a violated precondition fails before any
`new_group` call reaches the transport. -/
def axisInit (ax : Axis) (t : ProcessGroupInitializer) (use_cpu : Bool)
    (tr : Transport) : Except ConfigurationError (List FullEntry) × Transport :=
  if axisChecks ax t then
    let r := axisInitRun ax t use_cpu tr
    (.ok r.1, r.2)
  else (.error ⟨⟩, tr)

/-! ## Generic counting and enumeration lemmas -/

/-- Summing the indicator of `i = i0` over a list counts `i0`'s occurrences. -/
lemma sum_map_indicator (l : List Nat) (i0 : Nat) :
    (l.map (fun i => if i = i0 then 1 else 0)).sum = l.count i0 := by
  induction l with
  | nil => simp
  | cons a l ih =>
    simp only [List.map_cons, List.sum_cons, List.count_cons, ih]
    by_cases h : a = i0 <;> simp [h, Nat.add_comm]

/-- A doubly indexed enumeration that hits each of `0, …, n-1` exactly once is
a permutation of `List.range n`. -/
lemma flatMap_map_perm_range {a b n : Nat} (f : Nat → Nat → Nat)
    (hb : ∀ i j, i < a → j < b → f i j < n)
    (hex : ∀ x, x < n → ∃ i j, i < a ∧ j < b ∧ f i j = x)
    (huniq : ∀ i j i' j', i < a → j < b → i' < a → j' < b → f i j = f i' j' →
      i = i' ∧ j = j') :
    ((List.range a).flatMap (fun i => (List.range b).map (f i))).Perm (List.range n) := by
  rw [List.perm_iff_count]
  intro x
  rw [List.count_flatMap]
  by_cases hx : x < n
  · obtain ⟨i0, j0, hi0, hj0, hf⟩ := hex x hx
    have hrow : ∀ i ∈ List.range a,
        (List.count x ∘ fun i => (List.range b).map (f i)) i
          = (fun i => if i = i0 then 1 else 0) i := by
      intro i hi
      have hi' : i < a := List.mem_range.mp hi
      simp only [Function.comp_apply]
      rw [List.count_eq_countP, List.countP_map]
      by_cases hcase : i = i0
      · subst hcase
        have hcong : ∀ j ∈ List.range b,
            ((fun x0 => x0 == x) ∘ f i) j = true ↔ (fun j => j == j0) j = true := by
          intro j hj
          have hj' : j < b := List.mem_range.mp hj
          simp only [Function.comp_apply, beq_iff_eq]
          constructor
          · intro hfe
            exact (huniq i j i j0 hi' hj' hi0 hj0 (hfe.trans hf.symm)).2
          · intro hje; subst hje; exact hf
        rw [List.countP_congr hcong]
        simp only [if_pos rfl]
        rw [← List.count_eq_countP]
        exact List.count_eq_one_of_mem (List.nodup_range _) (List.mem_range.mpr hj0)
      · rw [if_neg hcase]
        rw [List.countP_eq_zero]
        intro j hj
        have hj' : j < b := List.mem_range.mp hj
        simp only [Function.comp_apply, beq_iff_eq]
        intro hfe
        exact hcase (huniq i j i0 j0 hi' hj' hi0 hj0 (hfe.trans hf.symm)).1
    rw [List.map_congr_left hrow, sum_map_indicator]
    rw [List.count_eq_one_of_mem (List.nodup_range _) (List.mem_range.mpr hi0)]
    rw [List.count_eq_one_of_mem (List.nodup_range _) (List.mem_range.mpr hx)]
  · have hrow : ∀ i ∈ List.range a,
        (List.count x ∘ fun i => (List.range b).map (f i)) i = (fun _ => 0) i := by
      intro i hi
      have hi' : i < a := List.mem_range.mp hi
      simp only [Function.comp_apply]
      rw [List.count_eq_countP, List.countP_map, List.countP_eq_zero]
      intro j hj
      have hj' : j < b := List.mem_range.mp hj
      simp only [Function.comp_apply, beq_iff_eq]
      intro hfe
      exact hx (hfe ▸ hb i j hi' hj')
    rw [List.map_congr_left hrow]
    have h2 : x ∉ List.range n := fun hmem => hx (List.mem_range.mp hmem)
    rw [List.count_eq_zero_of_not_mem h2]
    simp

/-- The column-major enumeration `i + j * s` (`i < s` outer, `j < b` inner)
is a permutation of `0, …, s*b - 1`. -/
lemma strided_perm_range (s b : Nat) :
    ((List.range s).flatMap (fun i => (List.range b).map (fun j => i + j * s))).Perm
      (List.range (s * b)) := by
  apply flatMap_map_perm_range
  · intro i j hi hj
    calc i + j * s < s + j * s := Nat.add_lt_add_right hi _
    _ = (j + 1) * s := by ring
    _ ≤ b * s := Nat.mul_le_mul_right s hj
    _ = s * b := Nat.mul_comm b s
  · intro x hx
    have hs : 0 < s := by
      rcases Nat.eq_zero_or_pos s with h | h
      · subst h; simp at hx
      · exact h
    refine ⟨x % s, x / s, Nat.mod_lt x hs, ?_, ?_⟩
    · exact Nat.div_lt_of_lt_mul hx
    · rw [Nat.mul_comm (x / s) s]
      exact Nat.mod_add_div x s
  · intro i j i' j' hi hj hi' hj' heq
    have hs : 0 < s := Nat.pos_of_ne_zero (fun h => by subst h; exact Nat.not_lt_zero i hi)
    have hmod : i = i' := by
      have h1 : (i + j * s) % s = i := by
        rw [Nat.add_mul_mod_self_right, Nat.mod_eq_of_lt hi]
      have h2 : (i' + j' * s) % s = i' := by
        rw [Nat.add_mul_mod_self_right, Nat.mod_eq_of_lt hi']
      rw [← h1, ← h2, heq]
    refine ⟨hmod, ?_⟩
    subst hmod
    have hj2 : j * s = j' * s := by omega
    exact Nat.eq_of_mul_eq_mul_right hs hj2

/-- The row-major enumeration `i * b + j` (`i < n` outer, `j < b` inner) lists
`0, …, n*b - 1` in order. -/
lemma blocks_eq_range (n b : Nat) :
    (List.range n).flatMap (fun i => (List.range b).map (fun j => i * b + j))
      = List.range (n * b) := by
  induction n with
  | zero => simp
  | succ n ih =>
    rw [List.range_succ, List.flatMap_append, ih]
    have h1 : (n + 1) * b = n * b + b := by ring
    rw [h1, List.range_add]
    simp [List.flatMap]

/-- Pointwise permutation of the pieces gives permutation of the flatMaps. -/
lemma flatMap_perm_congr {α β : Type} (l : List α) (f g : α → List β)
    (h : ∀ x ∈ l, (f x).Perm (g x)) : (l.flatMap f).Perm (l.flatMap g) := by
  induction l with
  | nil => simp
  | cons a l ih =>
    simp only [List.flatMap_cons]
    exact (h a (List.mem_cons_self a l)).append (ih (fun x hx => h x (List.mem_cons_of_mem a hx)))

/-- `filter` distributes over `flatMap`. -/
lemma filter_flatMap_comm {α β : Type} (l : List α) (f : α → List β) (p : β → Bool) :
    (l.flatMap f).filter p = l.flatMap (fun x => (f x).filter p) := by
  induction l with
  | nil => simp
  | cons a l ih => simp only [List.flatMap_cons, List.filter_append, ih]

/-- `flatten` commutes with `flatMap` of list-of-list-valued functions. -/
lemma flatten_flatMap {α β : Type} (l : List α) (f : α → List (List β)) :
    (l.flatMap f).flatten = l.flatMap (fun x => (f x).flatten) := by
  induction l with
  | nil => simp
  | cons a l ih => simp only [List.flatMap_cons, List.flatten_append, ih]

/-- The exact length of the Python ranges used by the resolvers:
`ceil((s*m - j) / s) = m` whenever `j < s`. -/
lemma ceil_div_exact (s m j : Nat) (hs : 0 < s) (hj : j < s) :
    (s * m - j + s - 1) / s = m := by
  rcases Nat.eq_zero_or_pos m with hm | hm
  · subst hm
    simp only [Nat.mul_zero, Nat.zero_sub]
    exact Nat.div_eq_of_lt (by omega)
  · have hle : s ≤ s * m := Nat.le_mul_of_pos_right s hm
    have h1 : s * m - j + s - 1 = s * m + (s - 1 - j) := by
      generalize s * m = A at hle ⊢
      omega
    rw [h1, Nat.mul_add_div hs, Nat.div_eq_of_lt (by omega), Nat.add_zero]

/-- Rewriting `pyRange` once the element count is known. -/
lemma pyRange_eq (a b s m : Nat) (h : (b - a + s - 1) / s = m) :
    pyRange a b s = (List.range m).map (fun k => a + k * s) := by
  unfold pyRange
  rw [h]

/-- Filtering `· < w` from `range m` gives `range w` when `w ≤ m`. -/
lemma filter_lt_range (w m : Nat) (h : w ≤ m) :
    (List.range m).filter (fun r => decide (r < w)) = List.range w := by
  induction m with
  | zero => have : w = 0 := Nat.le_zero.mp h; simp [this]
  | succ m ih =>
    rw [List.range_succ, List.filter_append]
    by_cases hw : w ≤ m
    · rw [ih hw]
      have : ¬ m < w := by omega
      simp [this]
    · have hw1 : w = m + 1 := by omega
      subst hw1
      have hall : (List.range (m + 1 - 1)).filter (fun r => decide (r < m + 1))
          = List.range (m + 1 - 1) := by
        rw [List.filter_eq_self]
        intro a ha
        have := List.mem_range.mp ha
        simp; omega
      simp only [Nat.add_sub_cancel] at hall
      rw [hall]
      have : m < m + 1 := Nat.lt_succ_self m
      simp [this, List.range_succ]

/-! ## Exactly-once coverage of each axis family -/

/-- Data-axis coverage: under the checked precondition, the partitions cover
every rank exactly once. -/
lemma data_cover (t : ProcessGroupInitializer) (h : Initializer_Data.checks t) :
    (Initializer_Data.groups t).flatten.Perm (List.range t.world_size) := by
  unfold Initializer_Data.groups
  rw [← List.flatMap_def]
  have hd : t.data_parallel_size ∣ t.world_size := Nat.dvd_of_mod_eq_zero h
  have hw : t.world_size / t.data_parallel_size * t.data_parallel_size = t.world_size :=
    Nat.div_mul_cancel hd
  have hp := strided_perm_range (t.world_size / t.data_parallel_size) t.data_parallel_size
  rw [hw] at hp
  exact hp

/-- Model-axis coverage: the contiguous blocks list the ranks in order. -/
lemma model_cover (t : ProcessGroupInitializer) (h : Initializer_Model.checks t) :
    (Initializer_Model.groups t).flatten.Perm (List.range t.world_size) := by
  unfold Initializer_Model.groups
  rw [← List.flatMap_def]
  have hd : (t.tensor_parallel_size * t.pipeline_parallel_size) ∣ t.world_size :=
    Nat.dvd_of_mod_eq_zero h
  have hw : t.world_size / (t.tensor_parallel_size * t.pipeline_parallel_size)
      * (t.tensor_parallel_size * t.pipeline_parallel_size) = t.world_size :=
    Nat.div_mul_cancel hd
  rw [blocks_eq_range, hw]

/-- Tensor-axis coverage: the contiguous blocks list the ranks in order. -/
lemma tensor_cover (t : ProcessGroupInitializer) (h : Initializer_Tensor.checks t) :
    (Initializer_Tensor.groups t).flatten.Perm (List.range t.world_size) := by
  unfold Initializer_Tensor.groups
  rw [← List.flatMap_def]
  have hd : t.tensor_parallel_size ∣ t.world_size := Nat.dvd_of_mod_eq_zero h
  have hw : t.world_size / t.tensor_parallel_size * t.tensor_parallel_size = t.world_size :=
    Nat.div_mul_cancel hd
  rw [blocks_eq_range, hw]

/-- Zero1-axis coverage: the checked preconditions alone do not suffice; with
the extra divisibility `zero1 ∣ data` the partitions cover every rank exactly
once. -/
lemma zero1_cover (t : ProcessGroupInitializer) (h : Initializer_Zero1.checks t)
    (hzd : t.zero1_parallel_size ∣ t.data_parallel_size) :
    (Initializer_Zero1.groups t).flatten.Perm (List.range t.world_size) := by
  obtain ⟨h1, _h2⟩ := h
  unfold Initializer_Zero1.groups
  rw [flatten_flatMap]
  have hjoin : ∀ i : Nat,
      ((List.range (t.data_parallel_size / t.zero1_parallel_size)).map
        (fun j => (List.range t.zero1_parallel_size).map
          (fun k => i + (j * t.zero1_parallel_size + k) * (t.world_size / t.data_parallel_size)))).flatten
      = (List.range (t.data_parallel_size / t.zero1_parallel_size * t.zero1_parallel_size)).map
          (fun q => i + q * (t.world_size / t.data_parallel_size)) := by
    intro i
    rw [← List.flatMap_def]
    have hm : ∀ j : Nat, (List.range t.zero1_parallel_size).map
        (fun k => i + (j * t.zero1_parallel_size + k) * (t.world_size / t.data_parallel_size))
        = ((List.range t.zero1_parallel_size).map (fun k => j * t.zero1_parallel_size + k)).map
            (fun q => i + q * (t.world_size / t.data_parallel_size)) := by
      intro j
      rw [List.map_map]
      rfl
    simp only [hm]
    rw [← List.map_flatMap, blocks_eq_range]
  simp only [hjoin]
  have hd2 : t.data_parallel_size / t.zero1_parallel_size * t.zero1_parallel_size
      = t.data_parallel_size := Nat.div_mul_cancel hzd
  have hw : t.world_size / t.data_parallel_size * t.data_parallel_size = t.world_size :=
    Nat.div_mul_cancel (Nat.dvd_of_mod_eq_zero h1)
  have hp := strided_perm_range (t.world_size / t.data_parallel_size)
    (t.data_parallel_size / t.zero1_parallel_size * t.zero1_parallel_size)
  rw [hd2] at hp
  rw [Nat.mul_comm (t.world_size / t.data_parallel_size) t.data_parallel_size] at hp
  rw [Nat.mul_comm t.data_parallel_size (t.world_size / t.data_parallel_size)] at hp
  rw [hw] at hp
  rw [hd2]
  exact hp

/-- Pipeline-axis coverage: under the two checked preconditions the strided
stage groups within each data block cover every rank exactly once. -/
lemma pipeline_cover (t : ProcessGroupInitializer) (h : Initializer_Pipeline.checks t) :
    (Initializer_Pipeline.groups t).flatten.Perm (List.range t.world_size) := by
  obtain ⟨h1, h2⟩ := h
  unfold Initializer_Pipeline.groups
  by_cases hblk0 : t.world_size / t.data_parallel_size = 0
  · have hw0 : t.world_size = 0 := by
      have := Nat.div_mul_cancel (Nat.dvd_of_mod_eq_zero h1)
      rw [hblk0] at this
      omega
    rw [hblk0, hw0]
    simp
  · have hst : 0 < t.world_size / t.data_parallel_size / t.pipeline_parallel_size := by
      rcases Nat.eq_zero_or_pos (t.world_size / t.data_parallel_size / t.pipeline_parallel_size)
        with hz | hz
      · have := Nat.mul_div_cancel' (Nat.dvd_of_mod_eq_zero h2)
        rw [hz, Nat.mul_zero] at this
        exact absurd this.symm hblk0
      · exact hz
    have hblk : t.world_size / t.data_parallel_size
        = t.world_size / t.data_parallel_size / t.pipeline_parallel_size
          * t.pipeline_parallel_size := by
      have := Nat.div_mul_cancel (Nat.dvd_of_mod_eq_zero h2)
      omega
    have hgrp : ∀ i : Nat,
        (List.range (t.world_size / t.data_parallel_size / t.pipeline_parallel_size)).map
          (fun j => pyRange (i * (t.world_size / t.data_parallel_size) + j)
            ((i + 1) * (t.world_size / t.data_parallel_size))
            (t.world_size / t.data_parallel_size / t.pipeline_parallel_size))
        = (List.range (t.world_size / t.data_parallel_size / t.pipeline_parallel_size)).map
          (fun j => (List.range t.pipeline_parallel_size).map
            (fun k => i * (t.world_size / t.data_parallel_size) + j
              + k * (t.world_size / t.data_parallel_size / t.pipeline_parallel_size))) := by
      intro i
      apply List.map_congr_left
      intro j hj
      have hj' : j < t.world_size / t.data_parallel_size / t.pipeline_parallel_size :=
        List.mem_range.mp hj
      apply pyRange_eq
      have hsub : (i + 1) * (t.world_size / t.data_parallel_size)
          - (i * (t.world_size / t.data_parallel_size) + j)
          = (t.world_size / t.data_parallel_size / t.pipeline_parallel_size)
            * t.pipeline_parallel_size - j := by
        have h3 : (i + 1) * (t.world_size / t.data_parallel_size)
            = i * (t.world_size / t.data_parallel_size)
              + (t.world_size / t.data_parallel_size) := by ring
        rw [h3]
        generalize i * (t.world_size / t.data_parallel_size) = A
        generalize hB : t.world_size / t.data_parallel_size / t.pipeline_parallel_size
          * t.pipeline_parallel_size = B at hblk ⊢
        rw [hblk]
        omega
      rw [hsub]
      exact ceil_div_exact (t.world_size / t.data_parallel_size / t.pipeline_parallel_size)
        t.pipeline_parallel_size j hst hj'
    simp only [hgrp]
    rw [flatten_flatMap]
    have hjoin : ∀ i : Nat,
        ((List.range (t.world_size / t.data_parallel_size / t.pipeline_parallel_size)).map
          (fun j => (List.range t.pipeline_parallel_size).map
            (fun k => i * (t.world_size / t.data_parallel_size) + j
              + k * (t.world_size / t.data_parallel_size / t.pipeline_parallel_size)))).flatten
        = ((List.range (t.world_size / t.data_parallel_size / t.pipeline_parallel_size)).flatMap
          (fun j => (List.range t.pipeline_parallel_size).map
            (fun k => j + k * (t.world_size / t.data_parallel_size / t.pipeline_parallel_size)))).map
          (fun q => i * (t.world_size / t.data_parallel_size) + q) := by
      intro i
      rw [← List.flatMap_def, List.map_flatMap]
      have hfun : ∀ j : Nat,
          (List.range t.pipeline_parallel_size).map
            (fun k => i * (t.world_size / t.data_parallel_size) + j
              + k * (t.world_size / t.data_parallel_size / t.pipeline_parallel_size))
          = ((List.range t.pipeline_parallel_size).map
              (fun k => j + k * (t.world_size / t.data_parallel_size / t.pipeline_parallel_size))).map
            (fun q => i * (t.world_size / t.data_parallel_size) + q) := by
        intro j
        rw [List.map_map]
        apply List.map_congr_left
        intro k _
        simp only [Function.comp_apply]
        omega
      simp only [hfun]
    simp only [hjoin]
    have hmid : ∀ i ∈ List.range t.data_parallel_size,
        (List.map (fun q => i * (t.world_size / t.data_parallel_size) + q)
          ((List.range (t.world_size / t.data_parallel_size / t.pipeline_parallel_size)).flatMap
            (fun j => (List.range t.pipeline_parallel_size).map
              (fun k => j + k * (t.world_size / t.data_parallel_size
                / t.pipeline_parallel_size))))).Perm
        (List.map (fun q => i * (t.world_size / t.data_parallel_size) + q)
          (List.range (t.world_size / t.data_parallel_size / t.pipeline_parallel_size
            * t.pipeline_parallel_size))) := by
      intro i _
      exact (strided_perm_range (t.world_size / t.data_parallel_size / t.pipeline_parallel_size)
        t.pipeline_parallel_size).map (fun q => i * (t.world_size / t.data_parallel_size) + q)
    refine (flatMap_perm_congr _ _ _ hmid).trans ?_
    rw [← hblk, blocks_eq_range, Nat.mul_div_cancel' (Nat.dvd_of_mod_eq_zero h1)]

/-- NetTest-axis coverage: for a positive chunk size the truncated chunks list
the ranks `0, …, world_size-1` exactly once. -/
lemma nettest_cover (t : ProcessGroupInitializer) (h : 1 ≤ t.nettest_parallel_size) :
    (Initializer_Nettest.groups t).flatten.Perm (List.range t.world_size) := by
  unfold Initializer_Nettest.groups
  rw [← List.flatMap_def, ← filter_flatMap_comm, blocks_eq_range]
  have hle : t.world_size ≤ (t.world_size + t.nettest_parallel_size - 1)
      / t.nettest_parallel_size * t.nettest_parallel_size := by
    have key := Nat.div_add_mod (t.world_size + t.nettest_parallel_size - 1)
      t.nettest_parallel_size
    have hm := Nat.mod_lt (t.world_size + t.nettest_parallel_size - 1) h
    rw [Nat.mul_comm]
    generalize hA : t.nettest_parallel_size * ((t.world_size + t.nettest_parallel_size - 1)
      / t.nettest_parallel_size) = A at key ⊢
    generalize hr : (t.world_size + t.nettest_parallel_size - 1)
      % t.nettest_parallel_size = r at key hm
    omega
  rw [filter_lt_range _ _ hle]

/-- Expert-axis coverage: under the checked preconditions the interleaved
groups cover every rank exactly once. -/
lemma expert_cover (t : ProcessGroupInitializer) (h : Initializer_Expert.checks t) :
    (Initializer_Expert.groups t).flatten.Perm (List.range t.world_size) := by
  obtain ⟨h1, _h2⟩ := h
  unfold Initializer_Expert.groups
  by_cases hnum : t.world_size / t.expert_parallel_size = 0
  · have hw0 : t.world_size = 0 := by rwa [hnum, Nat.mod_zero] at h1
    rw [hnum, hw0]
    simp
  · have hnpos : 0 < t.world_size / t.expert_parallel_size := Nat.pos_of_ne_zero hnum
    have hdvd : (t.world_size / t.expert_parallel_size) ∣ t.world_size :=
      Nat.dvd_of_mod_eq_zero h1
    have hw : t.world_size / t.expert_parallel_size
        * (t.world_size / (t.world_size / t.expert_parallel_size)) = t.world_size :=
      Nat.mul_div_cancel' hdvd
    have hpy : ∀ i ∈ List.range (t.world_size / t.expert_parallel_size),
        pyRange i t.world_size (t.world_size / t.expert_parallel_size)
          = (List.range (t.world_size / (t.world_size / t.expert_parallel_size))).map
              (fun k => i + k * (t.world_size / t.expert_parallel_size)) := by
      intro i hi
      have hi' := List.mem_range.mp hi
      apply pyRange_eq
      have hsub : t.world_size - i = t.world_size / t.expert_parallel_size
          * (t.world_size / (t.world_size / t.expert_parallel_size)) - i := by rw [hw]
      rw [hsub]
      exact ceil_div_exact (t.world_size / t.expert_parallel_size)
        (t.world_size / (t.world_size / t.expert_parallel_size)) i hnpos hi'
    rw [List.map_congr_left hpy, ← List.flatMap_def]
    have hp := strided_perm_range (t.world_size / t.expert_parallel_size)
      (t.world_size / (t.world_size / t.expert_parallel_size))
    rw [hw] at hp
    exact hp

/-! ## Transpose and chunking lemmas for the ExpertData resolver -/

lemma minLen_le_head (r : List Nat) (rest : List (List Nat)) :
    minLen (r :: rest) ≤ r.length := by
  cases rest with
  | nil => simp [minLen]
  | cons a l => exact Nat.min_le_left _ _

lemma minLen_const (c : Nat) (rows : List (List Nat)) (hne : rows ≠ [])
    (h : ∀ r ∈ rows, r.length = c) : minLen rows = c := by
  induction rows with
  | nil => exact absurd rfl hne
  | cons r rest ih =>
    cases rest with
    | nil => exact h r (List.mem_cons_self r [])
    | cons a l =>
      have h2 : minLen (a :: l) = c :=
        ih (by simp) (fun x hx => h x (List.mem_cons_of_mem r hx))
      have h1 : r.length = c := h r (List.mem_cons_self r (a :: l))
      show Nat.min r.length (minLen (a :: l)) = c
      rw [h1, h2]
      exact Nat.min_self c

lemma flatten_nil_of_all_nil (rows : List (List Nat)) (h : ∀ r ∈ rows, r = []) :
    rows.flatten = [] := by
  induction rows with
  | nil => rfl
  | cons r rest ih =>
    rw [List.flatten_cons, h r (List.mem_cons_self r rest), List.nil_append]
    exact ih (fun x hx => h x (List.mem_cons_of_mem r hx))

/-- Splitting every row into its head and its tail permutes the flattening. -/
lemma heads_tails_perm (rows : List (List Nat)) (h : ∀ r ∈ rows, r ≠ []) :
    (rows.map (fun r => r.getD 0 0) ++ (rows.map List.tail).flatten).Perm rows.flatten := by
  induction rows with
  | nil => simp
  | cons r rest ih =>
    obtain ⟨a, l, rfl⟩ : ∃ a l, r = a :: l := by
      cases r with
      | nil => exact absurd rfl (h [] (List.mem_cons_self [] rest))
      | cons a l => exact ⟨a, l, rfl⟩
    simp only [List.map_cons, List.flatten_cons, List.tail_cons, List.getD_cons_zero]
    rw [List.cons_append]
    apply List.Perm.cons
    have h1 : (List.map (fun r => r.getD 0 0) rest
          ++ (l ++ (List.map List.tail rest).flatten)).Perm
        ((l ++ List.map (fun r => r.getD 0 0) rest)
          ++ (List.map List.tail rest).flatten) := by
      rw [← List.append_assoc]
      exact List.perm_append_comm.append_right _
    refine h1.trans ?_
    rw [List.append_assoc]
    exact (ih (fun x hx => h x (List.mem_cons_of_mem _ hx))).append_left l

/-- Python `zip(*rows)` of equal-length rows permutes the flattening. -/
lemma pyZip_flatten_perm : ∀ (e : Nat) (rows : List (List Nat)),
    (∀ r ∈ rows, r.length = e) → (pyZip rows).flatten.Perm rows.flatten := by
  intro e
  induction e with
  | zero =>
    intro rows h
    have hnil : ∀ r ∈ rows, r = [] := fun r hr => List.length_eq_zero.mp (h r hr)
    rw [flatten_nil_of_all_nil rows hnil]
    cases rows with
    | nil => simp [pyZip]
    | cons r rest =>
      have h0 : r.length = 0 := h r (List.mem_cons_self r rest)
      have hm : minLen (r :: rest) = 0 := by
        have := minLen_le_head r rest
        omega
      simp [pyZip, hm]
  | succ e ih =>
    intro rows h
    cases rows with
    | nil => simp [pyZip]
    | cons r rest =>
      have hm : minLen (r :: rest) = e + 1 := minLen_const (e + 1) (r :: rest) (by simp) h
      have hlen : ∀ x ∈ (r :: rest).map List.tail, x.length = e := by
        intro x hx
        obtain ⟨row, hrow, rfl⟩ := List.mem_map.mp hx
        rw [List.length_tail, h row hrow]
        omega
      have hzip : pyZip (r :: rest)
          = ((r :: rest).map (fun row => row.getD 0 0))
            :: ((List.range e).map
              (fun u => (r :: rest).map (fun row => row.getD (u + 1) 0))) := by
        show (List.range (minLen (r :: rest))).map
            (fun u => (r :: rest).map (fun row => row.getD u 0)) = _
        rw [hm, List.range_succ_eq_map, List.map_cons, List.map_map]
        rfl
      have htail : (List.range e).map
            (fun u => (r :: rest).map (fun row => row.getD (u + 1) 0))
          = pyZip ((r :: rest).map List.tail) := by
        have hm2 : minLen ((r :: rest).map List.tail) = e :=
          minLen_const e _ (by simp) hlen
        rw [List.map_cons]
        have hred : pyZip (r.tail :: List.map List.tail rest)
            = (List.range (minLen (r.tail :: List.map List.tail rest))).map
                (fun u => (r.tail :: List.map List.tail rest).map
                  (fun row => row.getD u 0)) := rfl
        have hm2c : minLen (r.tail :: List.map List.tail rest) = e := by
          rwa [List.map_cons] at hm2
        rw [hred, hm2c]
        apply List.map_congr_left
        intro u _
        rw [← List.map_cons List.tail r rest, List.map_map]
        apply List.map_congr_left
        intro row hrow
        simp only [Function.comp_apply]
        obtain ⟨b, bl, rfl⟩ : ∃ b bl, row = b :: bl := by
          cases row with
          | nil =>
            have := h [] hrow
            simp at this
          | cons b bl => exact ⟨b, bl, rfl⟩
        rfl
      rw [hzip, List.flatten_cons, htail]
      have hne : ∀ x ∈ r :: rest, x ≠ [] := by
        intro x hx hxe
        have := h x hx
        rw [hxe] at this
        simp at this
      refine List.Perm.trans ?_ (heads_tails_perm (r :: rest) hne)
      exact (ih ((r :: rest).map List.tail) hlen).append_left _

/-- Consecutive `take e`-chunks flatten back to a prefix of the source list. -/
lemma chunks_flatten (e : Nat) : ∀ (n : Nat) (l : List Nat),
    ((List.range n).map (fun s => (l.drop (s * e)).take e)).flatten = l.take (n * e) := by
  intro n
  induction n with
  | zero => intro l; simp
  | succ n ih =>
    intro l
    rw [List.range_succ_eq_map, List.map_cons, List.map_map, List.flatten_cons]
    have hshift : (List.range n).map
          ((fun s => (l.drop (s * e)).take e) ∘ Nat.succ)
        = (List.range n).map (fun s => ((l.drop e).drop (s * e)).take e) := by
      apply List.map_congr_left
      intro s _
      simp only [Function.comp_apply]
      rw [List.drop_drop]
      have hix : e + s * e = Nat.succ s * e := by
        rw [Nat.succ_mul]
        omega
      rw [hix]
    rw [hshift, ih (l.drop e)]
    simp only [Nat.zero_mul, List.drop_zero]
    rw [← List.take_add]
    have : e + n * e = (n + 1) * e := by ring
    rw [this]

/-- The expert slices of one data-parallel group flatten back to the group. -/
lemma part_flatten (d e : Nat) (he : 0 < e) (hed : e ∣ d) (l : List Nat)
    (hl : l.length = d) :
    ((pyRange 0 d e).map (fun i => (l.drop i).take e)).flatten = l := by
  have hq : e * (d / e) = d := Nat.mul_div_cancel' hed
  have hpy : pyRange 0 d e = (List.range (d / e)).map (fun k => 0 + k * e) := by
    apply pyRange_eq
    have hc := ceil_div_exact e (d / e) 0 he he
    rwa [hq] at hc
  rw [hpy, List.map_map]
  have hcomp : (List.range (d / e)).map ((fun i => (l.drop i).take e) ∘ fun k => 0 + k * e)
      = (List.range (d / e)).map (fun s => (l.drop (s * e)).take e) := by
    apply List.map_congr_left
    intro s _
    simp only [Function.comp_apply, Nat.zero_add]
  rw [hcomp, chunks_flatten]
  have hde : d / e * e = d := Nat.div_mul_cancel hed
  rw [hde, ← hl, List.take_length]

/-- Every expert slice of a length-`d` data-parallel group has length `e`. -/
lemma part_lengths (d e : Nat) (he : 0 < e) (hed : e ∣ d) (l : List Nat)
    (hl : l.length = d) :
    ∀ r ∈ (pyRange 0 d e).map (fun i => (l.drop i).take e), r.length = e := by
  intro r hr
  obtain ⟨i, hi, rfl⟩ := List.mem_map.mp hr
  have hq : e * (d / e) = d := Nat.mul_div_cancel' hed
  have hpy : pyRange 0 d e = (List.range (d / e)).map (fun k => 0 + k * e) := by
    apply pyRange_eq
    have hc := ceil_div_exact e (d / e) 0 he he
    rwa [hq] at hc
  rw [hpy] at hi
  obtain ⟨k, hk, rfl⟩ := List.mem_map.mp hi
  have hk' : k < d / e := List.mem_range.mp hk
  rw [List.length_take, List.length_drop, hl]
  have hke : (k + 1) * e ≤ d := by
    have h1 : k + 1 ≤ d / e := hk'
    have h2 : (k + 1) * e ≤ d / e * e := Nat.mul_le_mul_right e h1
    have h3 : d / e * e = d := Nat.div_mul_cancel hed
    omega
  have : e ≤ d - (0 + k * e) := by
    have h4 : (k + 1) * e = k * e + e := by ring
    generalize k * e = A at h4 hke ⊢
    omega
  omega

/-- The data-parallel groups built by `_get_expert_parallel_ranks` cover every
rank exactly once when the model-parallel size divides the world size. -/
lemma expert_data_dp_cover (t : ProcessGroupInitializer)
    (hmp : (t.pipeline_parallel_size * t.tensor_parallel_size) ∣ t.world_size) :
    ((List.range (t.pipeline_parallel_size * t.tensor_parallel_size)).map
      (fun i => pyRange i t.world_size
        (t.pipeline_parallel_size * t.tensor_parallel_size))).flatten.Perm
      (List.range t.world_size) := by
  by_cases hM : t.pipeline_parallel_size * t.tensor_parallel_size = 0
  · have hw0 : t.world_size = 0 := by
      rcases hmp with ⟨c, hc⟩
      rw [hM] at hc
      simpa using hc
    rw [hM, hw0]
    simp
  · have hMpos := Nat.pos_of_ne_zero hM
    have hw : (t.pipeline_parallel_size * t.tensor_parallel_size)
        * (t.world_size / (t.pipeline_parallel_size * t.tensor_parallel_size))
        = t.world_size := Nat.mul_div_cancel' hmp
    have hpy : ∀ i ∈ List.range (t.pipeline_parallel_size * t.tensor_parallel_size),
        pyRange i t.world_size (t.pipeline_parallel_size * t.tensor_parallel_size)
          = (List.range (t.world_size
              / (t.pipeline_parallel_size * t.tensor_parallel_size))).map
              (fun k => i + k * (t.pipeline_parallel_size * t.tensor_parallel_size)) := by
      intro i hi
      apply pyRange_eq
      have hsub : t.world_size - i = (t.pipeline_parallel_size * t.tensor_parallel_size)
          * (t.world_size / (t.pipeline_parallel_size * t.tensor_parallel_size)) - i := by
        rw [hw]
      rw [hsub]
      exact ceil_div_exact _ _ i hMpos (List.mem_range.mp hi)
    rw [List.map_congr_left hpy, ← List.flatMap_def]
    have hp := strided_perm_range (t.pipeline_parallel_size * t.tensor_parallel_size)
      (t.world_size / (t.pipeline_parallel_size * t.tensor_parallel_size))
    rw [hw] at hp
    exact hp

/-- Every data-parallel group of `_get_expert_parallel_ranks` has exactly
`data_parallel_size` members when `data_parallel_size = world // model`. -/
lemma expert_data_dp_length (t : ProcessGroupInitializer)
    (hmp : (t.pipeline_parallel_size * t.tensor_parallel_size) ∣ t.world_size)
    (hdp : t.data_parallel_size
      = t.world_size / (t.pipeline_parallel_size * t.tensor_parallel_size)) :
    ∀ dp ∈ (List.range (t.pipeline_parallel_size * t.tensor_parallel_size)).map
      (fun i => pyRange i t.world_size
        (t.pipeline_parallel_size * t.tensor_parallel_size)),
      dp.length = t.data_parallel_size := by
  intro dp hdpm
  obtain ⟨i, hi, rfl⟩ := List.mem_map.mp hdpm
  have hMpos : 0 < t.pipeline_parallel_size * t.tensor_parallel_size :=
    Nat.pos_of_ne_zero (fun h0 => by rw [h0] at hi; simp at hi)
  have hw : (t.pipeline_parallel_size * t.tensor_parallel_size)
      * (t.world_size / (t.pipeline_parallel_size * t.tensor_parallel_size))
      = t.world_size := Nat.mul_div_cancel' hmp
  have hpy : pyRange i t.world_size (t.pipeline_parallel_size * t.tensor_parallel_size)
      = (List.range (t.world_size
          / (t.pipeline_parallel_size * t.tensor_parallel_size))).map
          (fun k => i + k * (t.pipeline_parallel_size * t.tensor_parallel_size)) := by
    apply pyRange_eq
    have hsub : t.world_size - i = (t.pipeline_parallel_size * t.tensor_parallel_size)
        * (t.world_size / (t.pipeline_parallel_size * t.tensor_parallel_size)) - i := by
      rw [hw]
    rw [hsub]
    exact ceil_div_exact _ _ i hMpos (List.mem_range.mp hi)
  rw [hpy, List.length_map, List.length_range, hdp]

/-- Expert-family coverage for the ExpertData resolver, under the divisibility
preconditions its arithmetic needs (none of which its constructor checks). -/
lemma expert_data_ep_cover (t : ProcessGroupInitializer)
    (hmp : (t.pipeline_parallel_size * t.tensor_parallel_size) ∣ t.world_size)
    (hdp : t.data_parallel_size
      = t.world_size / (t.pipeline_parallel_size * t.tensor_parallel_size))
    (hed : t.expert_parallel_size ∣ t.data_parallel_size)
    (he : 0 < t.expert_parallel_size) :
    ((Initializer_Expert_Data._get_expert_parallel_ranks t).1).flatten.Perm
      (List.range t.world_size) := by
  simp only [Initializer_Expert_Data._get_expert_parallel_ranks]
  rw [flatten_flatMap]
  have hpoint : ∀ dp ∈ (List.range (t.pipeline_parallel_size * t.tensor_parallel_size)).map
      (fun i => pyRange i t.world_size
        (t.pipeline_parallel_size * t.tensor_parallel_size)),
      (((pyRange 0 t.data_parallel_size t.expert_parallel_size).map
        (fun i => (dp.drop i).take t.expert_parallel_size)).flatten).Perm dp := by
    intro dp hdpm
    have hl : dp.length = t.data_parallel_size := expert_data_dp_length t hmp hdp dp hdpm
    rw [part_flatten t.data_parallel_size t.expert_parallel_size he hed dp hl]
  refine (flatMap_perm_congr _ _ _ hpoint).trans ?_
  have hid : ((List.range (t.pipeline_parallel_size * t.tensor_parallel_size)).map
      (fun i => pyRange i t.world_size
        (t.pipeline_parallel_size * t.tensor_parallel_size))).flatMap (fun dp => dp)
      = ((List.range (t.pipeline_parallel_size * t.tensor_parallel_size)).map
      (fun i => pyRange i t.world_size
        (t.pipeline_parallel_size * t.tensor_parallel_size))).flatten := by
    rw [List.flatMap_def, List.map_id']
  rw [hid]
  exact expert_data_dp_cover t hmp

/-- Expert-data-family coverage for the ExpertData resolver, under the same
preconditions. -/
lemma expert_data_ed_cover (t : ProcessGroupInitializer)
    (hmp : (t.pipeline_parallel_size * t.tensor_parallel_size) ∣ t.world_size)
    (hdp : t.data_parallel_size
      = t.world_size / (t.pipeline_parallel_size * t.tensor_parallel_size))
    (hed : t.expert_parallel_size ∣ t.data_parallel_size)
    (he : 0 < t.expert_parallel_size) :
    ((Initializer_Expert_Data._get_expert_parallel_ranks t).2).flatten.Perm
      (List.range t.world_size) := by
  simp only [Initializer_Expert_Data._get_expert_parallel_ranks]
  rw [flatten_flatMap]
  have hpoint : ∀ dp ∈ (List.range (t.pipeline_parallel_size * t.tensor_parallel_size)).map
      (fun i => pyRange i t.world_size
        (t.pipeline_parallel_size * t.tensor_parallel_size)),
      ((pyZip ((pyRange 0 t.data_parallel_size t.expert_parallel_size).map
        (fun i => (dp.drop i).take t.expert_parallel_size))).flatten).Perm dp := by
    intro dp hdpm
    have hl : dp.length = t.data_parallel_size := expert_data_dp_length t hmp hdp dp hdpm
    have h1 := pyZip_flatten_perm t.expert_parallel_size
      ((pyRange 0 t.data_parallel_size t.expert_parallel_size).map
        (fun i => (dp.drop i).take t.expert_parallel_size))
      (part_lengths t.data_parallel_size t.expert_parallel_size he hed dp hl)
    rw [part_flatten t.data_parallel_size t.expert_parallel_size he hed dp hl] at h1
    exact h1
  refine (flatMap_perm_congr _ _ _ hpoint).trans ?_
  have hid : ((List.range (t.pipeline_parallel_size * t.tensor_parallel_size)).map
      (fun i => pyRange i t.world_size
        (t.pipeline_parallel_size * t.tensor_parallel_size))).flatMap (fun dp => dp)
      = ((List.range (t.pipeline_parallel_size * t.tensor_parallel_size)).map
      (fun i => pyRange i t.world_size
        (t.pipeline_parallel_size * t.tensor_parallel_size))).flatten := by
    rw [List.flatMap_def, List.map_id']
  rw [hid]
  exact expert_data_dp_cover t hmp

/-- The amended per-axis precondition under which exactly-once coverage holds:
the checked `__init__` assertion, strengthened where the source checks too
little (Zero1 additionally needs `zero1 ∣ data`; NetTest needs a positive
chunk size; ExpertData, which checks nothing, needs its implicit divisibility
assumptions). -/
def axisPre (ax : Axis) (t : ProcessGroupInitializer) : Prop :=
  match ax with
  | .data => Initializer_Data.checks t
  | .model => Initializer_Model.checks t
  | .pipeline => Initializer_Pipeline.checks t
  | .tensor => Initializer_Tensor.checks t
  | .zero1 => Initializer_Zero1.checks t ∧ t.zero1_parallel_size ∣ t.data_parallel_size
  | .nettest => 1 ≤ t.nettest_parallel_size
  | .expert => Initializer_Expert.checks t
  | .expertData =>
      (t.pipeline_parallel_size * t.tensor_parallel_size) ∣ t.world_size ∧
      t.data_parallel_size
        = t.world_size / (t.pipeline_parallel_size * t.tensor_parallel_size) ∧
      t.expert_parallel_size ∣ t.data_parallel_size ∧ 0 < t.expert_parallel_size

instance (ax : Axis) (t : ProcessGroupInitializer) : Decidable (axisPre ax t) := by
  cases ax <;> (unfold axisPre; infer_instance)

/-- C1, counterexample: the claim quantifies over every topology satisfying
the resolver's *checked* preconditions, but for Zero1 with
`world_size = 8, data_parallel_size = 4, zero1_parallel_size = 8` both checked
asserts pass while the resolver enumerates no partition at all, so rank 0
(a valid rank) appears in zero partitions rather than exactly one. -/
theorem c1_counterexample :
    Initializer_Zero1.checks ⟨0, 8, 4, 1, 1, 8, 1, 1⟩ ∧
    (0 : Nat) < (⟨0, 8, 4, 1, 1, 8, 1, 1⟩ : ProcessGroupInitializer).world_size ∧
    (Initializer_Zero1.groups ⟨0, 8, 4, 1, 1, 8, 1, 1⟩).flatten.count 0 = 0 := by
  refine ⟨⟨by decide, by decide⟩, by decide, by decide⟩

/-- C1, amended: for every axis resolver and every topology satisfying the
amended preconditions of `axisPre` (the checked ones, plus `zero1 ∣ data` for
Zero1, a positive chunk size for NetTest, and the implicit divisibility
assumptions for ExpertData), each partition family the resolver enumerates
covers the full rank set `{0, …, world_size-1}` with every rank in exactly
one partition of the family — stated as: the concatenation of each family is
a permutation of `List.range world_size` (for NetTest the last partition is
the truncated remainder). -/
theorem c1_families_cover_rank_set (ax : Axis) (t : ProcessGroupInitializer)
    (h : axisPre ax t) :
    ∀ fam ∈ axisFamilies ax t, fam.flatten.Perm (List.range t.world_size) := by
  intro fam hfam
  cases ax with
  | data =>
    simp only [axisFamilies, List.mem_singleton] at hfam
    subst hfam
    exact data_cover t h
  | model =>
    simp only [axisFamilies, List.mem_singleton] at hfam
    subst hfam
    exact model_cover t h
  | pipeline =>
    simp only [axisFamilies, List.mem_singleton] at hfam
    subst hfam
    exact pipeline_cover t h
  | tensor =>
    simp only [axisFamilies, List.mem_singleton] at hfam
    subst hfam
    exact tensor_cover t h
  | zero1 =>
    simp only [axisFamilies, List.mem_singleton] at hfam
    subst hfam
    exact zero1_cover t h.1 h.2
  | nettest =>
    simp only [axisFamilies, List.mem_singleton] at hfam
    subst hfam
    exact nettest_cover t h
  | expert =>
    simp only [axisFamilies, List.mem_singleton] at hfam
    subst hfam
    exact expert_cover t h
  | expertData =>
    obtain ⟨h1, h2, h3, h4⟩ := h
    simp only [axisFamilies, List.mem_cons, List.mem_singleton] at hfam
    rcases hfam with hfam | hfam | hfam
    · subst hfam
      exact expert_data_ep_cover t h1 h2 h3 h4
    · subst hfam
      exact expert_data_ed_cover t h1 h2 h3 h4
    · exact absurd hfam (List.not_mem_nil fam)

/-- C1, witness: the amended theorem applied to the ExpertData resolver at
`world_size = 8`, model-parallel size 2, `data = 4`, `expert = 2`. -/
theorem c1_families_cover_rank_set_witness :
    axisPre .expertData ⟨0, 8, 4, 1, 2, 1, 1, 2⟩ ∧
    ∀ fam ∈ axisFamilies .expertData ⟨0, 8, 4, 1, 2, 1, 1, 2⟩,
      fam.flatten.Perm (List.range 8) :=
  ⟨by decide, c1_families_cover_rank_set .expertData ⟨0, 8, 4, 1, 2, 1, 1, 2⟩ (by decide)⟩

/-! ## Properties of the stateful runners -/

lemma getElem?_indexOf {r : Nat} {l : List Nat} (h : r ∈ l) :
    l[l.indexOf r]? = some r := by
  have hlt := List.indexOf_lt_length.mpr h
  rw [List.getElem?_eq_getElem hlt]
  exact congrArg some (List.getElem_indexOf hlt)

/-- Whatever entry `runGroupsSel` selects comes from one of its groups, with
the local rank, size and membership fields read off that group. -/
lemma runGroupsSel_entry (r : Nat) (u : Bool) (m : ParallelMode) :
    ∀ (gs : List (List Nat)) (tr : Transport) (e : FullEntry),
      (runGroupsSel r u m gs tr).1 = some e →
      e.ranks_in_group ∈ gs ∧ r ∈ e.ranks_in_group ∧
        e.local_rank = e.ranks_in_group.indexOf r ∧
        e.group_world_size = e.ranks_in_group.length := by
  intro gs
  induction gs with
  | nil =>
    intro tr e h
    simp [runGroupsSel] at h
  | cons g rest ih =>
    intro tr e h
    rw [runGroupsSel] at h
    cases hrec : (runGroupsSel r u m rest (makeGroupPair u g tr).2).1 with
    | some e2 =>
      rw [hrec] at h
      simp only at h
      obtain ⟨h1, h2, h3, h4⟩ := ih (makeGroupPair u g tr).2 e (by rw [hrec, ← h])
      exact ⟨List.mem_cons_of_mem g h1, h2, h3, h4⟩
    | none =>
      rw [hrec] at h
      simp only at h
      by_cases hr : r ∈ g
      · rw [if_pos hr] at h
        cases h
        exact ⟨List.mem_cons_self g rest, hr, rfl, rfl⟩
      · rw [if_neg hr] at h
        cases h

/-- `runGroupsSel` selects an entry whenever some group contains the rank. -/
lemma runGroupsSel_isSome (r : Nat) (u : Bool) (m : ParallelMode) :
    ∀ (gs : List (List Nat)) (tr : Transport),
      (∃ g ∈ gs, r ∈ g) → ((runGroupsSel r u m gs tr).1).isSome := by
  intro gs
  induction gs with
  | nil =>
    intro tr h
    obtain ⟨g, hg, _⟩ := h
    exact absurd hg (List.not_mem_nil g)
  | cons g rest ih =>
    intro tr h
    rw [runGroupsSel]
    cases hrec : (runGroupsSel r u m rest (makeGroupPair u g tr).2).1 with
    | some e2 => simp [hrec]
    | none =>
      obtain ⟨g0, hg0, hrg⟩ := h
      rcases List.mem_cons.mp hg0 with rfl | hg0r
      · simp [hrec, hrg]
      · have := ih (makeGroupPair u g tr).2 ⟨g0, hg0r, hrg⟩
        rw [hrec] at this
        simp at this

/-- Every entry `runGroupsCollect` appends comes from one of its groups. -/
lemma runGroupsCollect_entry (r : Nat) (u : Bool) (m : ParallelMode) :
    ∀ (gs : List (List Nat)) (tr : Transport) (e : FullEntry),
      e ∈ (runGroupsCollect r u m gs tr).1 →
      e.ranks_in_group ∈ gs ∧ r ∈ e.ranks_in_group ∧
        e.local_rank = e.ranks_in_group.indexOf r ∧
        e.group_world_size = e.ranks_in_group.length := by
  intro gs
  induction gs with
  | nil =>
    intro tr e h
    simp [runGroupsCollect] at h
  | cons g rest ih =>
    intro tr e h
    rw [runGroupsCollect] at h
    simp only at h
    rcases List.mem_append.mp h with hh | ht
    · by_cases hr : r ∈ g
      · rw [if_pos hr] at hh
        rcases List.mem_singleton.mp hh with rfl
        exact ⟨List.mem_cons_self g rest, hr, rfl, rfl⟩
      · rw [if_neg hr] at hh
        exact absurd hh (List.not_mem_nil e)
    · obtain ⟨h1, h2, h3, h4⟩ := ih (makeGroupPair u g tr).2 e ht
      exact ⟨List.mem_cons_of_mem g h1, h2, h3, h4⟩

/-- `runGroupsCollect` appends an entry whenever some group contains the rank. -/
lemma runGroupsCollect_ne_nil (r : Nat) (u : Bool) (m : ParallelMode) :
    ∀ (gs : List (List Nat)) (tr : Transport),
      (∃ g ∈ gs, r ∈ g) → (runGroupsCollect r u m gs tr).1 ≠ [] := by
  intro gs
  induction gs with
  | nil =>
    intro tr h
    obtain ⟨g, hg, _⟩ := h
    exact absurd hg (List.not_mem_nil g)
  | cons g rest ih =>
    intro tr h
    rw [runGroupsCollect]
    simp only
    obtain ⟨g0, hg0, hrg⟩ := h
    rcases List.mem_cons.mp hg0 with rfl | hg0r
    · rw [if_pos hrg]
      simp
    · intro habs
      have h2 := ih (makeGroupPair u g tr).2 ⟨g0, hg0r, hrg⟩
      rcases List.append_eq_nil.mp habs with ⟨_, hnil⟩
      exact h2 hnil

/-- The properties C4 needs, for a single-result runner over any group list. -/
lemma selEntry_props (r : Nat) (u : Bool) (m : ParallelMode) (gs : List (List Nat))
    (tr : Transport) (e : FullEntry) (h : e ∈ ((runGroupsSel r u m gs tr).1).toList) :
    e.ranks_in_group[e.local_rank]? = some r ∧
      e.group_world_size = e.ranks_in_group.length ∧ e.ranks_in_group ∈ gs := by
  have hsome : (runGroupsSel r u m gs tr).1 = some e := by
    cases ho : (runGroupsSel r u m gs tr).1 with
    | none => rw [ho] at h; simp [Option.toList] at h
    | some e2 =>
      rw [ho] at h
      simp only [Option.toList, List.mem_singleton] at h
      rw [h]
  obtain ⟨h1, h2, h3, h4⟩ := runGroupsSel_entry r u m gs tr e hsome
  exact ⟨by rw [h3]; exact getElem?_indexOf h2, h4, h1⟩

/-- A single-result runner returns an entry whenever a group holds the rank. -/
lemma sel_toList_ne_nil (r : Nat) (u : Bool) (m : ParallelMode) (gs : List (List Nat))
    (tr : Transport) (hex : ∃ g ∈ gs, r ∈ g) :
    ((runGroupsSel r u m gs tr).1).toList ≠ [] := by
  have hs := runGroupsSel_isSome r u m gs tr hex
  cases ho : (runGroupsSel r u m gs tr).1 with
  | none => rw [ho] at hs; simp at hs
  | some e2 => simp [Option.toList]

/-- C4: for every axis resolver and every rank that is a member of a
partition, each registry entry the run produces carries a `local_rank` equal
to the rank's index within its partition's ordered sequence (so the partition
at that index holds the calling rank), a `group_world_size` equal to the
partition's length, and a `ranks_in_group` that is one of the axis's
partitions; moreover a member rank always obtains at least one entry. -/
theorem c4_local_rank_is_index :
    (∀ (ax : Axis) (t : ProcessGroupInitializer) (use_cpu : Bool) (tr : Transport),
      ∀ e ∈ (axisInitRun ax t use_cpu tr).1,
        e.ranks_in_group[e.local_rank]? = some t.rank ∧
        e.group_world_size = e.ranks_in_group.length ∧
        e.ranks_in_group ∈ (axisFamilies ax t).flatten) ∧
    (∀ (ax : Axis) (t : ProcessGroupInitializer) (use_cpu : Bool) (tr : Transport),
      (∃ g ∈ (axisFamilies ax t).flatten, t.rank ∈ g) →
        (axisInitRun ax t use_cpu tr).1 ≠ []) := by
  constructor
  · intro ax t u tr e he
    cases ax
    case expertData =>
      simp only [axisInitRun] at he
      rcases List.mem_append.mp he with h1 | h2
      · obtain ⟨ha, hb, hc, hd⟩ := runGroupsCollect_entry _ _ _ _ _ e h1
        refine ⟨by rw [hc]; exact getElem?_indexOf hb, hd, ?_⟩
        simp only [axisFamilies, List.flatten_cons, List.flatten_nil, List.append_nil]
        exact List.mem_append_left _ ha
      · obtain ⟨ha, hb, hc, hd⟩ := runGroupsCollect_entry _ _ _ _ _ e h2
        refine ⟨by rw [hc]; exact getElem?_indexOf hb, hd, ?_⟩
        simp only [axisFamilies, List.flatten_cons, List.flatten_nil, List.append_nil]
        exact List.mem_append_right _ ha
    all_goals exact selEntry_props t.rank u _ _ tr e he
  · intro ax t u tr hex
    cases ax
    case expertData =>
      simp only [axisFamilies, List.flatten_cons, List.flatten_nil, List.append_nil] at hex
      obtain ⟨g, hg, hr⟩ := hex
      simp only [axisInitRun]
      rcases List.mem_append.mp hg with h1 | h2
      · intro habs
        rcases List.append_eq_nil.mp habs with ⟨hnil, _⟩
        exact runGroupsCollect_ne_nil _ _ _ _ _ ⟨g, h1, hr⟩ hnil
      · intro habs
        rcases List.append_eq_nil.mp habs with ⟨_, hnil⟩
        exact runGroupsCollect_ne_nil _ _ _ _ _ ⟨g, h2, hr⟩ hnil
    all_goals exact sel_toList_ne_nil t.rank u _ _ tr hex

/-- C4, witness: the Data resolver at rank 3, `world_size = 8, data = 2`,
which selects the partition `[3, 7]` with local rank 0 and size 2. -/
theorem c4_local_rank_is_index_witness :
    (([3, 7] : List Nat)[(0 : Nat)]? = some 3 ∧
      (2 : Nat) = ([3, 7] : List Nat).length ∧
      ([3, 7] : List Nat) ∈ (axisFamilies .data ⟨3, 8, 2, 1, 1, 1, 1, 1⟩).flatten) ∧
    (axisInitRun .data ⟨3, 8, 2, 1, 1, 1, 1, 1⟩ false ⟨"nccl", []⟩).1 ≠ [] :=
  ⟨c4_local_rank_is_index.1 .data ⟨3, 8, 2, 1, 1, 1, 1, 1⟩ false ⟨"nccl", []⟩
      ⟨0, 2, 3, none, [3, 7], ParallelMode.DATA⟩ (by decide),
   c4_local_rank_is_index.2 .data ⟨3, 8, 2, 1, 1, 1, 1, 1⟩ false ⟨"nccl", []⟩
      (by decide)⟩

/-! ## CPU-fallback handle lemmas -/

lemma lookup_stable {α : Type} (l ext : List α) (c : Nat) (v : α)
    (h : l[c]? = some v) : (l ++ ext)[c]? = some v := by
  have hlt : c < l.length := by
    by_contra hge
    rw [List.getElem?_eq_none (Nat.le_of_not_lt hge)] at h
    cases h
  rw [List.getElem?_append, if_pos hlt]
  exact h

lemma makeGroupPair_backend (u : Bool) (g : List Nat) (tr : Transport) :
    ((makeGroupPair u g tr).2).backend = tr.backend := by
  simp only [makeGroupPair, new_group]
  split
  · split <;> rfl
  · rfl

lemma makeGroupPair_created (u : Bool) (g : List Nat) (tr : Transport) :
    ∃ ext, ((makeGroupPair u g tr).2).created = tr.created ++ ext := by
  simp only [makeGroupPair, new_group]
  split
  · split
    · exact ⟨[(g, tr.backend), (g, "gloo")], by simp⟩
    · exact ⟨[(g, tr.backend)], rfl⟩
  · exact ⟨[(g, tr.backend)], rfl⟩

lemma makeGroupPair_gloo (g : List Nat) (tr : Transport) (h : tr.backend = "gloo") :
    (makeGroupPair true g tr).1 = ((makeGroupPair true g tr).1.1,
      some (makeGroupPair true g tr).1.1) := by
  simp [makeGroupPair, new_group, h]

lemma makeGroupPair_not_gloo (g : List Nat) (tr : Transport) (h : ¬ tr.backend = "gloo") :
    (makeGroupPair true g tr).1.1 = tr.created.length ∧
    (makeGroupPair true g tr).1.2 = some (tr.created.length + 1) ∧
    ((makeGroupPair true g tr).2).created
      = tr.created ++ [(g, tr.backend), (g, "gloo")] := by
  simp [makeGroupPair, new_group, h]

lemma runGroupsSel_backend (r : Nat) (u : Bool) (m : ParallelMode) :
    ∀ (gs : List (List Nat)) (tr : Transport),
      ((runGroupsSel r u m gs tr).2).backend = tr.backend := by
  intro gs
  induction gs with
  | nil => intro tr; rfl
  | cons g rest ih =>
    intro tr
    rw [runGroupsSel]
    cases hrec : (runGroupsSel r u m rest (makeGroupPair u g tr).2).1 with
    | some e2 =>
      simp only [hrec]
      rw [show (runGroupsSel r u m rest (makeGroupPair u g tr).2).2.backend
        = ((makeGroupPair u g tr).2).backend from ih _]
      exact makeGroupPair_backend u g tr
    | none =>
      simp only [hrec]
      rw [show (runGroupsSel r u m rest (makeGroupPair u g tr).2).2.backend
        = ((makeGroupPair u g tr).2).backend from ih _]
      exact makeGroupPair_backend u g tr

lemma runGroupsSel_created (r : Nat) (u : Bool) (m : ParallelMode) :
    ∀ (gs : List (List Nat)) (tr : Transport),
      ∃ ext, ((runGroupsSel r u m gs tr).2).created = tr.created ++ ext := by
  intro gs
  induction gs with
  | nil => intro tr; exact ⟨[], by simp [runGroupsSel]⟩
  | cons g rest ih =>
    intro tr
    obtain ⟨e1, he1⟩ := makeGroupPair_created u g tr
    obtain ⟨e2, he2⟩ := ih (makeGroupPair u g tr).2
    rw [runGroupsSel]
    cases hrec : (runGroupsSel r u m rest (makeGroupPair u g tr).2).1 with
    | some e3 =>
      simp only [hrec]
      exact ⟨e1 ++ e2, by rw [he2, he1, List.append_assoc]⟩
    | none =>
      simp only [hrec]
      exact ⟨e1 ++ e2, by rw [he2, he1, List.append_assoc]⟩

lemma runGroupsCollect_backend (r : Nat) (u : Bool) (m : ParallelMode) :
    ∀ (gs : List (List Nat)) (tr : Transport),
      ((runGroupsCollect r u m gs tr).2).backend = tr.backend := by
  intro gs
  induction gs with
  | nil => intro tr; rfl
  | cons g rest ih =>
    intro tr
    rw [runGroupsCollect]
    simp only
    rw [show (runGroupsCollect r u m rest (makeGroupPair u g tr).2).2.backend
      = ((makeGroupPair u g tr).2).backend from ih _]
    exact makeGroupPair_backend u g tr

lemma runGroupsCollect_created (r : Nat) (u : Bool) (m : ParallelMode) :
    ∀ (gs : List (List Nat)) (tr : Transport),
      ∃ ext, ((runGroupsCollect r u m gs tr).2).created = tr.created ++ ext := by
  intro gs
  induction gs with
  | nil => intro tr; exact ⟨[], by simp [runGroupsCollect]⟩
  | cons g rest ih =>
    intro tr
    obtain ⟨e1, he1⟩ := makeGroupPair_created u g tr
    obtain ⟨e2, he2⟩ := ih (makeGroupPair u g tr).2
    rw [runGroupsCollect]
    simp only
    exact ⟨e1 ++ e2, by rw [he2, he1, List.append_assoc]⟩

/-- With a CPU-capable backend, every selected entry reuses the primary
handle as its fallback. -/
lemma runGroupsSel_gloo (r : Nat) (m : ParallelMode) :
    ∀ (gs : List (List Nat)) (tr : Transport), tr.backend = "gloo" →
      ∀ e : FullEntry, (runGroupsSel r true m gs tr).1 = some e →
        e.cpu_group = some e.process_group := by
  intro gs
  induction gs with
  | nil =>
    intro tr _ e h
    simp [runGroupsSel] at h
  | cons g rest ih =>
    intro tr hb e h
    rw [runGroupsSel] at h
    cases hrec : (runGroupsSel r true m rest (makeGroupPair true g tr).2).1 with
    | some e2 =>
      rw [hrec] at h
      simp only [Option.some.injEq] at h
      subst h
      exact ih (makeGroupPair true g tr).2
        (by rw [makeGroupPair_backend]; exact hb) e2 hrec
    | none =>
      rw [hrec] at h
      simp only at h
      by_cases hr : r ∈ g
      · rw [if_pos hr] at h
        cases h
        show (makeGroupPair true g tr).1.2 = some (makeGroupPair true g tr).1.1
        rw [makeGroupPair_gloo g tr hb]
      · rw [if_neg hr] at h
        cases h

/-- With a CPU-capable backend, every collected entry reuses the primary
handle as its fallback. -/
lemma runGroupsCollect_gloo (r : Nat) (m : ParallelMode) :
    ∀ (gs : List (List Nat)) (tr : Transport), tr.backend = "gloo" →
      ∀ e ∈ (runGroupsCollect r true m gs tr).1,
        e.cpu_group = some e.process_group := by
  intro gs
  induction gs with
  | nil =>
    intro tr _ e h
    simp [runGroupsCollect] at h
  | cons g rest ih =>
    intro tr hb e h
    rw [runGroupsCollect] at h
    simp only at h
    rcases List.mem_append.mp h with hh | ht
    · by_cases hr : r ∈ g
      · rw [if_pos hr] at hh
        rcases List.mem_singleton.mp hh with rfl
        show (makeGroupPair true g tr).1.2 = some (makeGroupPair true g tr).1.1
        rw [makeGroupPair_gloo g tr hb]
      · rw [if_neg hr] at hh
        exact absurd hh (List.not_mem_nil e)
    · exact ih (makeGroupPair true g tr).2
        (by rw [makeGroupPair_backend]; exact hb) e ht

/-- Without a CPU-capable backend, every selected entry holds a distinct
fallback handle whose log record is the same ranks on the gloo backend. -/
lemma runGroupsSel_not_gloo (r : Nat) (m : ParallelMode) :
    ∀ (gs : List (List Nat)) (tr : Transport), ¬ tr.backend = "gloo" →
      ∀ e : FullEntry, (runGroupsSel r true m gs tr).1 = some e →
        ∃ c, e.cpu_group = some c ∧ c ≠ e.process_group ∧
          ((runGroupsSel r true m gs tr).2).created[c]?
            = some (e.ranks_in_group, "gloo") := by
  intro gs
  induction gs with
  | nil =>
    intro tr _ e h
    simp [runGroupsSel] at h
  | cons g rest ih =>
    intro tr hb e h
    have hfinal : (runGroupsSel r true m (g :: rest) tr).2
        = (runGroupsSel r true m rest (makeGroupPair true g tr).2).2 := by
      rw [runGroupsSel]
      cases hrec : (runGroupsSel r true m rest (makeGroupPair true g tr).2).1 <;> simp [hrec]
    rw [runGroupsSel] at h
    cases hrec : (runGroupsSel r true m rest (makeGroupPair true g tr).2).1 with
    | some e2 =>
      rw [hrec] at h
      simp only [Option.some.injEq] at h
      subst h
      obtain ⟨c, h1, h2, h3⟩ := ih (makeGroupPair true g tr).2
        (by rw [makeGroupPair_backend]; exact hb) e2 hrec
      exact ⟨c, h1, h2, by rw [hfinal]; exact h3⟩
    | none =>
      rw [hrec] at h
      simp only at h
      by_cases hr : r ∈ g
      · rw [if_pos hr] at h
        obtain ⟨hn, hcpu, hcr⟩ := makeGroupPair_not_gloo g tr hb
        cases h
        refine ⟨tr.created.length + 1, hcpu, by dsimp only; omega, ?_⟩
        rw [hfinal]
        obtain ⟨ext, hext⟩ := runGroupsSel_created r true m rest (makeGroupPair true g tr).2
        rw [hext, hcr, List.append_assoc]
        rw [List.getElem?_append]
        rw [if_neg (by omega)]
        simp
      · rw [if_neg hr] at h
        cases h

/-- Without a CPU-capable backend, every collected entry holds a distinct
fallback handle whose log record is the same ranks on the gloo backend. -/
lemma runGroupsCollect_not_gloo (r : Nat) (m : ParallelMode) :
    ∀ (gs : List (List Nat)) (tr : Transport), ¬ tr.backend = "gloo" →
      ∀ e ∈ (runGroupsCollect r true m gs tr).1,
        ∃ c, e.cpu_group = some c ∧ c ≠ e.process_group ∧
          ((runGroupsCollect r true m gs tr).2).created[c]?
            = some (e.ranks_in_group, "gloo") := by
  intro gs
  induction gs with
  | nil =>
    intro tr _ e h
    simp [runGroupsCollect] at h
  | cons g rest ih =>
    intro tr hb e h
    have hfinal : (runGroupsCollect r true m (g :: rest) tr).2
        = (runGroupsCollect r true m rest (makeGroupPair true g tr).2).2 := by
      rw [runGroupsCollect]
    rw [runGroupsCollect] at h
    simp only at h
    rcases List.mem_append.mp h with hh | ht
    · by_cases hr : r ∈ g
      · rw [if_pos hr] at hh
        rcases List.mem_singleton.mp hh with rfl
        obtain ⟨hn, hcpu, hcr⟩ := makeGroupPair_not_gloo g tr hb
        refine ⟨tr.created.length + 1, hcpu, by dsimp only; omega, ?_⟩
        rw [hfinal]
        obtain ⟨ext, hext⟩ := runGroupsCollect_created r true m rest (makeGroupPair true g tr).2
        rw [hext, hcr, List.append_assoc]
        rw [List.getElem?_append]
        rw [if_neg (by omega)]
        simp
      · rw [if_neg hr] at hh
        exact absurd hh (List.not_mem_nil e)
    · obtain ⟨c, h1, h2, h3⟩ := ih (makeGroupPair true g tr).2
        (by rw [makeGroupPair_backend]; exact hb) e ht
      exact ⟨c, h1, h2, by rw [hfinal]; exact h3⟩

lemma toList_some {e : FullEntry} {o : Option FullEntry} (h : e ∈ o.toList) :
    o = some e := by
  cases o with
  | none => simp [Option.toList] at h
  | some e2 =>
    simp only [Option.toList, List.mem_singleton] at h
    rw [h]

/-- C7: when the requested CPU fallback is enabled and the active backend is
already CPU-capable (`"gloo"`), every resolver returns a fallback handle that
is the very same handle as the primary one; when the backend is not
CPU-capable, a distinct handle is constructed whose log record carries the
same rank list on the gloo backend. -/
theorem c7_cpu_fallback_reuse :
    (∀ (ax : Axis) (t : ProcessGroupInitializer) (tr : Transport),
      tr.backend = "gloo" →
      ∀ e ∈ (axisInitRun ax t true tr).1, e.cpu_group = some e.process_group) ∧
    (∀ (ax : Axis) (t : ProcessGroupInitializer) (tr : Transport),
      ¬ tr.backend = "gloo" →
      ∀ e ∈ (axisInitRun ax t true tr).1, ∃ c, e.cpu_group = some c ∧
        c ≠ e.process_group ∧
        ((axisInitRun ax t true tr).2).created[c]? = some (e.ranks_in_group, "gloo")) := by
  constructor
  · intro ax t tr hb e he
    cases ax
    case expertData =>
      simp only [axisInitRun] at he
      rcases List.mem_append.mp he with h1 | h2
      · exact runGroupsCollect_gloo t.rank .EXPERT _ tr hb e h1
      · refine runGroupsCollect_gloo t.rank .EXPERT_DATA _ _ ?_ e h2
        rw [runGroupsCollect_backend]
        exact hb
    all_goals exact runGroupsSel_gloo t.rank _ _ tr hb e (toList_some he)
  · intro ax t tr hb e he
    cases ax
    case expertData =>
      simp only [axisInitRun] at he ⊢
      rcases List.mem_append.mp he with h1 | h2
      · obtain ⟨c, hc1, hc2, hc3⟩ := runGroupsCollect_not_gloo t.rank .EXPERT _ tr hb e h1
        refine ⟨c, hc1, hc2, ?_⟩
        obtain ⟨ext, hext⟩ := runGroupsCollect_created t.rank true .EXPERT_DATA
          (Initializer_Expert_Data._get_expert_parallel_ranks t).2
          (runGroupsCollect t.rank true .EXPERT
            (Initializer_Expert_Data._get_expert_parallel_ranks t).1 tr).2
        rw [hext]
        exact lookup_stable _ _ _ _ hc3
      · refine runGroupsCollect_not_gloo t.rank .EXPERT_DATA _ _ ?_ e h2
        rw [runGroupsCollect_backend]
        exact hb
    all_goals (
      obtain ⟨c, hc1, hc2, hc3⟩ := runGroupsSel_not_gloo t.rank _ _ tr hb e (toList_some he)
      exact ⟨c, hc1, hc2, hc3⟩)

/-- C7, witness: the Data resolver at `world_size = 2, data = 2`, rank 0, on
the gloo backend reuses handle 0; on the nccl backend rank 0 receives the
distinct fallback handle 1 recorded as `([0, 1], "gloo")`. -/
theorem c7_cpu_fallback_reuse_witness :
    ((⟨0, 2, 0, some 0, [0, 1], ParallelMode.DATA⟩ : FullEntry).cpu_group
      = some (⟨0, 2, 0, some 0, [0, 1], ParallelMode.DATA⟩ : FullEntry).process_group) ∧
    (∃ c, (⟨0, 2, 0, some 1, [0, 1], ParallelMode.DATA⟩ : FullEntry).cpu_group = some c ∧
      c ≠ (⟨0, 2, 0, some 1, [0, 1], ParallelMode.DATA⟩ : FullEntry).process_group ∧
      ((axisInitRun .data ⟨0, 2, 2, 1, 1, 1, 1, 1⟩ true ⟨"nccl", []⟩).2).created[c]?
        = some ([0, 1], "gloo")) :=
  ⟨c7_cpu_fallback_reuse.1 .data ⟨0, 2, 2, 1, 1, 1, 1, 1⟩ ⟨"gloo", []⟩ rfl
      ⟨0, 2, 0, some 0, [0, 1], ParallelMode.DATA⟩ (by decide),
   c7_cpu_fallback_reuse.2 .data ⟨0, 2, 2, 1, 1, 1, 1, 1⟩ ⟨"nccl", []⟩ (by decide)
      ⟨0, 2, 0, some 1, [0, 1], ParallelMode.DATA⟩ (by decide)⟩

/-- C3: for every topology violating an axis's checked divisibility or
equality precondition, constructing that axis's initializer fails with
`ConfigurationError`, and the failure happens before any group-construction
call reaches the transport — the instrumented transport log is returned
unchanged, recording zero `new_group` calls. -/
theorem c3_config_error_before_transport (ax : Axis) (t : ProcessGroupInitializer)
    (use_cpu : Bool) (tr : Transport) (h : ¬ axisChecks ax t) :
    axisInit ax t use_cpu tr = (Except.error ⟨⟩, tr) := by
  unfold axisInit
  rw [if_neg h]

/-- C3, witness: the Data axis at `world_size = 7, data = 2` (the claim's
example) fails with `ConfigurationError` and an untouched transport. -/
theorem c3_config_error_before_transport_witness :
    axisInit .data ⟨0, 7, 2, 1, 1, 1, 1, 1⟩ false ⟨"nccl", []⟩
      = (Except.error ⟨⟩, ⟨"nccl", []⟩) :=
  c3_config_error_before_transport .data ⟨0, 7, 2, 1, 1, 1, 1, 1⟩ false ⟨"nccl", []⟩
    (by decide)

/-- C8: every axis resolver is deterministic — two topologies with identical
parameters (all eight fields) enumerate identical ordered partition lists,
and the full run over any transport state is a function of those parameters
alone. -/
theorem c8_resolvers_deterministic (ax : Axis) (t1 t2 : ProcessGroupInitializer)
    (hr : t1.rank = t2.rank) (hw : t1.world_size = t2.world_size)
    (hd : t1.data_parallel_size = t2.data_parallel_size)
    (hp : t1.pipeline_parallel_size = t2.pipeline_parallel_size)
    (ht : t1.tensor_parallel_size = t2.tensor_parallel_size)
    (hz : t1.zero1_parallel_size = t2.zero1_parallel_size)
    (hn : t1.nettest_parallel_size = t2.nettest_parallel_size)
    (he : t1.expert_parallel_size = t2.expert_parallel_size) :
    axisFamilies ax t1 = axisFamilies ax t2 ∧
    ∀ (use_cpu : Bool) (tr : Transport),
      axisInitRun ax t1 use_cpu tr = axisInitRun ax t2 use_cpu tr := by
  have heq : t1 = t2 := by
    cases t1
    cases t2
    simp_all
  subst heq
  exact ⟨rfl, fun _ _ => rfl⟩

/-- C8, witness: the ExpertData resolver evaluated twice at the same
parameters yields the same partitions and the same run. -/
theorem c8_resolvers_deterministic_witness :
    axisFamilies .expertData ⟨0, 8, 4, 1, 2, 1, 1, 2⟩
      = axisFamilies .expertData ⟨0, 8, 4, 1, 2, 1, 1, 2⟩ ∧
    axisInitRun .expertData ⟨0, 8, 4, 1, 2, 1, 1, 2⟩ true ⟨"nccl", []⟩
      = axisInitRun .expertData ⟨0, 8, 4, 1, 2, 1, 1, 2⟩ true ⟨"nccl", []⟩ :=
  ⟨(c8_resolvers_deterministic .expertData ⟨0, 8, 4, 1, 2, 1, 1, 2⟩
      ⟨0, 8, 4, 1, 2, 1, 1, 2⟩ rfl rfl rfl rfl rfl rfl rfl rfl).1,
   (c8_resolvers_deterministic .expertData ⟨0, 8, 4, 1, 2, 1, 1, 2⟩
      ⟨0, 8, 4, 1, 2, 1, 1, 2⟩ rfl rfl rfl rfl rfl rfl rfl rfl).2 true ⟨"nccl", []⟩⟩

/-- C2, counterexample: with `world_size = 8`, model-parallel size 2
(`pipeline = 1, tensor = 2`), `data_parallel_size = 4` and
`expert_parallel_size = 4` — the sizes the claim states — the resolver
produces the expert partitions `[[0,2,4,6],[1,3,5,7]]` and the singleton
expert-data partitions, not the claimed `[[0,2],[4,6],[1,3],[5,7]]` /
`[[0,4],[2,6],[1,5],[3,7]]`. -/
theorem c2_counterexample :
    Initializer_Expert_Data._get_expert_parallel_ranks ⟨0, 8, 4, 1, 2, 1, 1, 4⟩
      = ([[0, 2, 4, 6], [1, 3, 5, 7]],
         [[0], [2], [4], [6], [1], [3], [5], [7]]) ∧
    Initializer_Expert_Data._get_expert_parallel_ranks ⟨0, 8, 4, 1, 2, 1, 1, 4⟩
      ≠ ([[0, 2], [4, 6], [1, 3], [5, 7]],
         [[0, 4], [2, 6], [1, 5], [3, 7]]) := by
  constructor
  · decide
  · decide

/-- C2, amended: the partitions the claim lists are produced for
`expert_parallel_size = 2` (the value in the source docstring's example),
with `world_size = 8`, model-parallel size 2 and `data_parallel_size = 4`. -/
theorem c2_expert_data_worked_example :
    Initializer_Expert_Data._get_expert_parallel_ranks ⟨0, 8, 4, 1, 2, 1, 1, 2⟩
      = ([[0, 2], [4, 6], [1, 3], [5, 7]],
         [[0, 4], [2, 6], [1, 5], [3, 7]]) := by
  decide

/-- C6: the Pipeline resolver at `world_size = 8, data = 2, pipeline = 2`
(block 4, stage stride 2) passes its checks and produces exactly
`[0,2], [1,3]` in the first data block and `[4,6], [5,7]` in the second,
each of exactly `pipeline_parallel_size = 2` members. -/
theorem c6_pipeline_worked_example :
    Initializer_Pipeline.checks ⟨0, 8, 2, 2, 2, 1, 1, 1⟩ ∧
    Initializer_Pipeline.groups ⟨0, 8, 2, 2, 2, 1, 1, 1⟩
      = [[0, 2], [1, 3], [4, 6], [5, 7]] ∧
    ∀ g ∈ Initializer_Pipeline.groups ⟨0, 8, 2, 2, 2, 1, 1, 1⟩, g.length = 2 := by
  refine ⟨⟨by decide, by decide⟩, by decide, by decide⟩

/-- C5: the Expert resolver at `world_size = 8, expert = 4` (with
`data = expert` as its constructor demands) passes its checks and yields
exactly the interleaved partitions `[0,2,4,6]` and `[1,3,5,7]`; in general,
whenever `expert_parallel_size` divides `world_size`, group `i` consists of
every `(world_size / expert_parallel_size)`-th rank starting at `i` — the
`expert_parallel_size` ranks `i, i + num, i + 2*num, …` — not a contiguous
block. -/
theorem c5_expert_interleaving :
    (Initializer_Expert.checks ⟨0, 8, 4, 1, 1, 1, 1, 4⟩ ∧
      Initializer_Expert.groups ⟨0, 8, 4, 1, 1, 1, 1, 4⟩
        = [[0, 2, 4, 6], [1, 3, 5, 7]]) ∧
    ∀ t : ProcessGroupInitializer, t.expert_parallel_size ∣ t.world_size →
      ∀ i, i < t.world_size / t.expert_parallel_size →
        (Initializer_Expert.groups t)[i]?
          = some ((List.range t.expert_parallel_size).map
              (fun k => i + k * (t.world_size / t.expert_parallel_size))) := by
  constructor
  · exact ⟨⟨by decide, by decide⟩, by decide⟩
  · intro t hdvd i hi
    have hnum : 0 < t.world_size / t.expert_parallel_size := Nat.pos_of_ne_zero (by omega)
    unfold Initializer_Expert.groups
    rw [List.getElem?_map, List.getElem?_range hi, Option.map_some']
    congr 1
    apply pyRange_eq
    have hw2 : t.world_size / t.expert_parallel_size * t.expert_parallel_size
        = t.world_size := Nat.div_mul_cancel hdvd
    have hc := ceil_div_exact (t.world_size / t.expert_parallel_size)
      t.expert_parallel_size i hnum hi
    rwa [hw2] at hc

/-- C5, witness: the general interleaving law applied at
`world_size = 8, expert = 4`, group 0. -/
theorem c5_expert_interleaving_witness :
    (Initializer_Expert.groups ⟨0, 8, 4, 1, 1, 1, 1, 4⟩)[(0 : Nat)]?
      = some ((List.range 4).map (fun k => 0 + k * (8 / 4))) :=
  c5_expert_interleaving.2 ⟨0, 8, 4, 1, 1, 1, 1, 4⟩ (by decide) 0 (by decide)

/-- C9: the Expert constructor accepts topologies where
`expert_parallel_size` does not divide `world_size` (it checks only
`world_size % (world_size // expert) == 0` and `data == expert`); every
partition it then produces has exactly
`world_size // (world_size // expert_parallel_size)` members — as at
`world_size = 10, expert = 4`, which is accepted and yields the two groups
`[0,2,4,6,8]` and `[1,3,5,7,9]` of `10 // (10 // 4) = 5 ≠ 4` members. -/
theorem c9_expert_group_sizes :
    (∀ t : ProcessGroupInitializer, Initializer_Expert.checks t →
      ∀ g ∈ Initializer_Expert.groups t,
        g.length = t.world_size / (t.world_size / t.expert_parallel_size)) ∧
    Initializer_Expert.checks ⟨0, 10, 4, 1, 1, 1, 1, 4⟩ ∧
    Initializer_Expert.groups ⟨0, 10, 4, 1, 1, 1, 1, 4⟩
      = [[0, 2, 4, 6, 8], [1, 3, 5, 7, 9]] ∧
    (10 : Nat) / ((10 : Nat) / 4) = 5 ∧ ((10 : Nat) / ((10 : Nat) / 4)) ≠ 4 := by
  refine ⟨?_, ⟨by decide, by decide⟩, by decide, by decide, by decide⟩
  intro t hch g hg
  obtain ⟨h1, _h2⟩ := hch
  unfold Initializer_Expert.groups at hg
  obtain ⟨i, hi, rfl⟩ := List.mem_map.mp hg
  have hi' := List.mem_range.mp hi
  have hnum : 0 < t.world_size / t.expert_parallel_size := by omega
  have hdvd : (t.world_size / t.expert_parallel_size) ∣ t.world_size :=
    Nat.dvd_of_mod_eq_zero h1
  have hw : t.world_size / t.expert_parallel_size
      * (t.world_size / (t.world_size / t.expert_parallel_size)) = t.world_size :=
    Nat.mul_div_cancel' hdvd
  have hc : (t.world_size - i + (t.world_size / t.expert_parallel_size) - 1)
      / (t.world_size / t.expert_parallel_size)
      = t.world_size / (t.world_size / t.expert_parallel_size) := by
    have := ceil_div_exact (t.world_size / t.expert_parallel_size)
      (t.world_size / (t.world_size / t.expert_parallel_size)) i hnum hi'
    rwa [hw] at this
  rw [pyRange_eq _ _ _ _ hc, List.length_map, List.length_range]

/-- C9, witness: the length law applied to the first group of the accepted
topology `world_size = 10, expert = 4`. -/
theorem c9_expert_group_sizes_witness :
    ([0, 2, 4, 6, 8] : List Nat).length = (10 : Nat) / ((10 : Nat) / 4) :=
  c9_expert_group_sizes.1 ⟨0, 10, 4, 1, 1, 1, 1, 4⟩ ⟨by decide, by decide⟩
    [0, 2, 4, 6, 8] (by decide)

/-! ## The optimizer parameter-group splitter (`internlm/train/utils.py`)

A parameter is embedded by its classification (`is_norm_param`,
`is_gate_param`, `dtype == torch.float32`, `is_moe_param`), its MoE group
name and an identity; a parameter-group dict by its name, its params list,
its other attributes, and its boolean marker keys.  Python's dict of new
groups becomes an insertion-ordered association list; a missing key on
`new_groups[param.group_name]` is the `KeyError` the source would raise,
embedded as `Except.error`. -/

structure Param where
  is_norm : Bool
  is_gate : Bool
  is_fp32 : Bool
  is_moe : Bool
  group_name : String
  pid : Nat
deriving DecidableEq, Repr

structure PGroup where
  name : String
  params : List Param
  attrs : List (String × Nat)
  flags : List String
deriving DecidableEq, Repr

/-- Python dict insertion: replace in place when the key exists, else append. -/
def dictInsert (k : String) (v : PGroup) : List (String × PGroup) → List (String × PGroup)
  | [] => [(k, v)]
  | (k2, v2) :: rest =>
    if k2 = k then (k, v) :: rest else (k2, v2) :: dictInsert k v rest

/-- The `new_groups` dict: `fp32` always; `gate`, `norm` and one group per
expert parallel group name when `num_experts > 1`. -/
def mkNewGroups (num_experts : Nat) (expert_group_names : List String) :
    List (String × PGroup) :=
  let base := dictInsert "fp32" ⟨"fp32", [], [], []⟩ []
  if 1 < num_experts then
    let withGate := dictInsert "gate" ⟨"gate", [], [], ["gate"]⟩ base
    let withNorm := dictInsert "norm" ⟨"norm", [], [], ["norm"]⟩ withGate
    expert_group_names.foldl (fun acc k => dictInsert k ⟨k, [], [], ["moe"]⟩ acc) withNorm
  else base

/-- `new_groups[k]["params"].append(p)`: `none` is Python's `KeyError`. -/
def updateAssoc (k : String) (p : Param) :
    List (String × PGroup) → Option (List (String × PGroup))
  | [] => none
  | (k2, g) :: rest =>
    if k2 = k then some ((k2, { g with params := g.params ++ [p] }) :: rest)
    else (updateAssoc k p rest).map (fun l => (k2, g) :: l)

/-- `group[ori_key] = value` on an attribute dict. -/
def setAttr (k : String) (v : Nat) : List (String × Nat) → List (String × Nat)
  | [] => [(k, v)]
  | (k2, v2) :: rest =>
    if k2 = k then (k, v) :: rest else (k2, v2) :: setAttr k v rest

/-- The attribute-copy loop: every non-`name`/`params` key of the source
group is written onto every new group. -/
def copyAttrs (src : List (String × Nat)) (ngs : List (String × PGroup)) :
    List (String × PGroup) :=
  src.foldl
    (fun acc kv => acc.map (fun kg => (kg.1, { kg.2 with attrs := setAttr kv.1 kv.2 kg.2.attrs })))
    ngs

/-- The `if/elif` chain routing one parameter: `some` updated new-groups when
the parameter joins a new group, `none` when it stays in the origin group. -/
def routeParam (num_experts : Nat) (p : Param) (ngs : List (String × PGroup)) :
    Except String (Option (List (String × PGroup))) :=
  if 1 < num_experts ∧ p.is_norm then
    match updateAssoc "norm" p ngs with
    | some l => .ok (some l)
    | none => .error "KeyError"
  else if p.is_gate then
    match updateAssoc "gate" p ngs with
    | some l => .ok (some l)
    | none => .error "KeyError"
  else if p.is_fp32 then
    match updateAssoc "fp32" p ngs with
    | some l => .ok (some l)
    | none => .error "KeyError"
  else if p.is_moe then
    match updateAssoc p.group_name p ngs with
    | some l => .ok (some l)
    | none => .error "KeyError"
  else .ok none

/-- The per-group parameter loop: routes each parameter in order, returning
the updated new-groups and the `origin_params` kept in the original group. -/
def routeParams (num_experts : Nat) (ngs : List (String × PGroup)) :
    List Param → Except String (List (String × PGroup) × List Param)
  | [] => .ok (ngs, [])
  | p :: rest =>
    match routeParam num_experts p ngs with
    | .error e => .error e
    | .ok (some ngs2) => routeParams num_experts ngs2 rest
    | .ok none =>
      match routeParams num_experts ngs rest with
      | .error e => .error e
      | .ok (ngs2, origin) => .ok (ngs2, p :: origin)

/-- The outer loop over the input parameter groups. -/
def processGroups (num_experts : Nat) (ngs : List (String × PGroup)) :
    List PGroup → Except String (List PGroup × List (String × PGroup))
  | [] => .ok ([], ngs)
  | g :: rest =>
    match routeParams num_experts (copyAttrs g.attrs ngs) g.params with
    | .error e => .error e
    | .ok (ngs2, origin) =>
      match processGroups num_experts ngs2 rest with
      | .error e => .error e
      | .ok (rest2, ngsF) => .ok ({ g with params := origin } :: rest2, ngsF)

/-- Embedding of `split_params_into_different_groups_for_optimizer`: the
pruned original groups followed by every new group with a non-empty params
list, in dict insertion order. -/
def split_params_into_different_groups_for_optimizer (num_experts : Nat)
    (expert_group_names : List String) (param_groups : List PGroup) :
    Except String (List PGroup) :=
  match processGroups num_experts (mkNewGroups num_experts expert_group_names) param_groups with
  | .error e => .error e
  | .ok (pruned, ngsF) =>
    .ok (pruned ++ (ngsF.map Prod.snd).filter (fun g => !g.params.isEmpty))

/-- All parameters held by an association list of groups, in order. -/
def joinP (ngs : List (String × PGroup)) : List Param :=
  (ngs.map (fun kv => kv.2.params)).flatten

/-- All parameters held by a list of groups, in order. -/
def inJoin (pgs : List PGroup) : List Param :=
  (pgs.map PGroup.params).flatten

lemma updateAssoc_perm (k : String) (p : Param) :
    ∀ (ngs l2 : List (String × PGroup)), updateAssoc k p ngs = some l2 →
      (joinP l2).Perm (p :: joinP ngs) := by
  intro ngs
  induction ngs with
  | nil => intro l2 h; simp [updateAssoc] at h
  | cons kg rest ih =>
    intro l2 h
    obtain ⟨k2, g⟩ := kg
    rw [updateAssoc] at h
    by_cases hk : k2 = k
    · rw [if_pos hk] at h
      cases h
      show ((g.params ++ [p]) ++ joinP rest).Perm (p :: (g.params ++ joinP rest))
      rw [List.append_assoc]
      exact List.perm_middle
    · rw [if_neg hk] at h
      cases hrec : updateAssoc k p rest with
      | none => rw [hrec] at h; cases h
      | some l3 =>
        rw [hrec] at h
        simp only [Option.map_some', Option.some.injEq] at h
        subst h
        show (g.params ++ joinP l3).Perm (p :: (g.params ++ joinP rest))
        refine ((ih l3 hrec).append_left g.params).trans ?_
        exact List.perm_middle

lemma routeParam_some_perm (num_experts : Nat) (p : Param)
    (ngs l2 : List (String × PGroup))
    (h : routeParam num_experts p ngs = .ok (some l2)) :
    (joinP l2).Perm (p :: joinP ngs) := by
  unfold routeParam at h
  split at h
  · cases hup : updateAssoc "norm" p ngs with
    | none => rw [hup] at h; cases h
    | some l3 =>
      rw [hup] at h
      simp only [Except.ok.injEq, Option.some.injEq] at h
      subst h
      exact updateAssoc_perm _ p ngs _ hup
  · split at h
    · cases hup : updateAssoc "gate" p ngs with
      | none => rw [hup] at h; cases h
      | some l3 =>
        rw [hup] at h
        simp only [Except.ok.injEq, Option.some.injEq] at h
        subst h
        exact updateAssoc_perm _ p ngs _ hup
    · split at h
      · cases hup : updateAssoc "fp32" p ngs with
        | none => rw [hup] at h; cases h
        | some l3 =>
          rw [hup] at h
          simp only [Except.ok.injEq, Option.some.injEq] at h
          subst h
          exact updateAssoc_perm _ p ngs _ hup
      · split at h
        · cases hup : updateAssoc p.group_name p ngs with
          | none => rw [hup] at h; cases h
          | some l3 =>
            rw [hup] at h
            simp only [Except.ok.injEq, Option.some.injEq] at h
            subst h
            exact updateAssoc_perm _ p ngs _ hup
        · simp at h

lemma routeParams_perm (num_experts : Nat) :
    ∀ (ps : List Param) (ngs ngs2 : List (String × PGroup)) (origin : List Param),
      routeParams num_experts ngs ps = .ok (ngs2, origin) →
      (origin ++ joinP ngs2).Perm (ps ++ joinP ngs) := by
  intro ps
  induction ps with
  | nil =>
    intro ngs ngs2 origin h
    simp only [routeParams, Except.ok.injEq, Prod.mk.injEq] at h
    obtain ⟨h1, h2⟩ := h
    subst h1
    subst h2
    simp
  | cons p rest ih =>
    intro ngs ngs2 origin h
    rw [routeParams] at h
    cases hr : routeParam num_experts p ngs with
    | error e => rw [hr] at h; cases h
    | ok o =>
      rw [hr] at h
      cases o with
      | some ngs3 =>
        simp only at h
        have hperm := routeParam_some_perm num_experts p ngs ngs3 hr
        have hrec := ih ngs3 ngs2 origin h
        refine hrec.trans ?_
        refine (hperm.append_left rest).trans ?_
        rw [List.cons_append]
        exact List.perm_middle
      | none =>
        simp only at h
        cases hrec2 : routeParams num_experts ngs rest with
        | error e => rw [hrec2] at h; cases h
        | ok pr =>
          rw [hrec2] at h
          obtain ⟨ngs4, origin2⟩ := pr
          simp only [Except.ok.injEq, Prod.mk.injEq] at h
          obtain ⟨h1, h2⟩ := h
          rw [← h1, ← h2, List.cons_append, List.cons_append]
          exact (ih ngs ngs4 origin2 hrec2).cons p

lemma joinP_map_attrs (f : String × PGroup → List (String × Nat))
    (l : List (String × PGroup)) :
    joinP (l.map (fun kg => (kg.1, { kg.2 with attrs := f kg }))) = joinP l := by
  unfold joinP
  rw [List.map_map]
  rfl

lemma copyAttrs_joinP : ∀ (src : List (String × Nat)) (ngs : List (String × PGroup)),
    joinP (copyAttrs src ngs) = joinP ngs := by
  intro src
  induction src with
  | nil => intro ngs; rfl
  | cons kv rest ih =>
    intro ngs
    show joinP (copyAttrs rest (ngs.map
      (fun kg => (kg.1, { kg.2 with attrs := setAttr kv.1 kv.2 kg.2.attrs })))) = joinP ngs
    rw [ih, joinP_map_attrs]

lemma dictInsert_all_nil (k : String) (v : PGroup) (hv : v.params = []) :
    ∀ l : List (String × PGroup), (∀ kg ∈ l, kg.2.params = []) →
      ∀ kg ∈ dictInsert k v l, kg.2.params = [] := by
  intro l
  induction l with
  | nil =>
    intro _ kg hkg
    simp only [dictInsert, List.mem_singleton] at hkg
    rw [hkg]
    exact hv
  | cons kg2 rest ih =>
    intro hall kg hkg
    rw [dictInsert] at hkg
    by_cases hk : kg2.1 = k
    · rw [if_pos hk] at hkg
      rcases List.mem_cons.mp hkg with rfl | hmem
      · exact hv
      · exact hall kg (List.mem_cons_of_mem _ hmem)
    · rw [if_neg hk] at hkg
      rcases List.mem_cons.mp hkg with rfl | hmem
      · exact hall kg2 (List.mem_cons_self _ _)
      · exact ih (fun x hx => hall x (List.mem_cons_of_mem _ hx)) kg hmem

lemma mkNewGroups_all_nil (num_experts : Nat) (names : List String) :
    ∀ kg ∈ mkNewGroups num_experts names, kg.2.params = [] := by
  unfold mkNewGroups
  split
  · have hbase : ∀ kg ∈ dictInsert "fp32" ⟨"fp32", [], [], []⟩ [], kg.2.params = [] :=
      dictInsert_all_nil _ _ rfl [] (by simp)
    have hgate := dictInsert_all_nil "gate" ⟨"gate", [], [], ["gate"]⟩ rfl _ hbase
    have hnorm := dictInsert_all_nil "norm" ⟨"norm", [], [], ["norm"]⟩ rfl _ hgate
    have hfold : ∀ (ns : List String) (acc : List (String × PGroup)),
        (∀ kg ∈ acc, kg.2.params = []) →
        ∀ kg ∈ ns.foldl (fun acc k => dictInsert k ⟨k, [], [], ["moe"]⟩ acc) acc,
          kg.2.params = [] := by
      intro ns
      induction ns with
      | nil => intro acc hacc; exact hacc
      | cons n rest ih =>
        intro acc hacc
        exact ih _ (dictInsert_all_nil n ⟨n, [], [], ["moe"]⟩ rfl acc hacc)
    exact hfold names _ hnorm
  · exact dictInsert_all_nil _ _ rfl [] (by simp)

lemma joinP_nil_of_all_nil : ∀ ngs : List (String × PGroup),
    (∀ kg ∈ ngs, kg.2.params = []) → joinP ngs = [] := by
  intro ngs
  induction ngs with
  | nil => intro _; rfl
  | cons kg rest ih =>
    intro hall
    show kg.2.params ++ joinP rest = []
    rw [hall kg (List.mem_cons_self _ _), List.nil_append]
    exact ih (fun x hx => hall x (List.mem_cons_of_mem _ hx))

lemma inJoin_filter_nonempty : ∀ l : List PGroup,
    inJoin (l.filter (fun g => !g.params.isEmpty)) = inJoin l := by
  intro l
  induction l with
  | nil => rfl
  | cons g rest ih =>
    rw [List.filter_cons]
    by_cases hg : g.params.isEmpty
    · have hnil : g.params = [] := List.isEmpty_iff.mp hg
      rw [if_neg (by simp [hg])]
      show inJoin (rest.filter _) = g.params ++ inJoin rest
      rw [ih, hnil, List.nil_append]
    · rw [if_pos (by simp [hg])]
      show g.params ++ inJoin (rest.filter _) = g.params ++ inJoin rest
      rw [ih]

lemma joinP_eq_inJoin_snd (ngs : List (String × PGroup)) :
    inJoin (ngs.map Prod.snd) = joinP ngs := by
  unfold inJoin joinP
  rw [List.map_map]
  rfl

lemma processGroups_spec (num_experts : Nat) :
    ∀ (pgs : List PGroup) (ngs ngsF : List (String × PGroup)) (pruned : List PGroup),
      processGroups num_experts ngs pgs = .ok (pruned, ngsF) →
      pruned.length = pgs.length ∧
      (inJoin pruned ++ joinP ngsF).Perm (inJoin pgs ++ joinP ngs) := by
  intro pgs
  induction pgs with
  | nil =>
    intro ngs ngsF pruned h
    simp only [processGroups, Except.ok.injEq, Prod.mk.injEq] at h
    obtain ⟨h1, h2⟩ := h
    rw [← h1, ← h2]
    simp
  | cons g rest ih =>
    intro ngs ngsF pruned h
    rw [processGroups] at h
    cases hr : routeParams num_experts (copyAttrs g.attrs ngs) g.params with
    | error e => rw [hr] at h; cases h
    | ok pr =>
      rw [hr] at h
      obtain ⟨ngs2, origin⟩ := pr
      simp only at h
      cases hrec : processGroups num_experts ngs2 rest with
      | error e => rw [hrec] at h; cases h
      | ok pr2 =>
        rw [hrec] at h
        obtain ⟨rest2, ngsF2⟩ := pr2
        simp only [Except.ok.injEq, Prod.mk.injEq] at h
        obtain ⟨h1, h2⟩ := h
        rw [← h1, ← h2]
        obtain ⟨ihlen, ihperm⟩ := ih ngs2 ngsF2 rest2 hrec
        constructor
        · simp [ihlen]
        · have hroute := routeParams_perm num_experts g.params _ _ _ hr
          rw [copyAttrs_joinP] at hroute
          show ((origin ++ inJoin rest2) ++ joinP ngsF2).Perm
            ((g.params ++ inJoin rest) ++ joinP ngs)
          have t1 : ((origin ++ inJoin rest2) ++ joinP ngsF2).Perm
              (origin ++ (inJoin rest ++ joinP ngs2)) := by
            rw [List.append_assoc]
            exact ihperm.append_left origin
          have t2 : (origin ++ (inJoin rest ++ joinP ngs2)).Perm
              (inJoin rest ++ (origin ++ joinP ngs2)) := by
            rw [← List.append_assoc, ← List.append_assoc]
            exact (List.perm_append_comm).append_right _
          have t3 : (inJoin rest ++ (origin ++ joinP ngs2)).Perm
              (inJoin rest ++ (g.params ++ joinP ngs)) := hroute.append_left _
          have t4 : (inJoin rest ++ (g.params ++ joinP ngs)).Perm
              ((g.params ++ inJoin rest) ++ joinP ngs) := by
            rw [← List.append_assoc]
            exact (List.perm_append_comm).append_right _
          exact ((t1.trans t2).trans t3).trans t4

lemma inJoin_append (a b : List PGroup) : inJoin (a ++ b) = inJoin a ++ inJoin b := by
  unfold inJoin
  rw [List.map_append, List.flatten_append]

/-- C10: whenever `split_params_into_different_groups_for_optimizer` returns
(no `KeyError`), its output is the pruned original groups followed by the
newly created groups, every appended new group has a non-empty params list,
and the parameters are preserved as a partition: the concatenation of all
output params lists is a permutation of the concatenation of all input params
lists — no parameter dropped, none duplicated, each occurrence in exactly one
output group. -/
theorem c10_split_preserves_params (num_experts : Nat) (names : List String)
    (pgs out : List PGroup)
    (h : split_params_into_different_groups_for_optimizer num_experts names pgs
      = .ok out) :
    ∃ kept app, out = kept ++ app ∧ kept.length = pgs.length ∧
      (∀ g ∈ app, g.params ≠ []) ∧ (inJoin out).Perm (inJoin pgs) := by
  unfold split_params_into_different_groups_for_optimizer at h
  cases hp : processGroups num_experts (mkNewGroups num_experts names) pgs with
  | error e => rw [hp] at h; cases h
  | ok pr =>
    rw [hp] at h
    obtain ⟨pruned, ngsF⟩ := pr
    simp only [Except.ok.injEq] at h
    obtain ⟨hlen, hperm⟩ := processGroups_spec num_experts pgs _ _ _ hp
    refine ⟨pruned, (ngsF.map Prod.snd).filter (fun g => !g.params.isEmpty),
      h.symm, hlen, ?_, ?_⟩
    · intro g hg
      have hmem := List.of_mem_filter hg
      intro hnil
      rw [hnil] at hmem
      simp at hmem
    · rw [← h, inJoin_append, inJoin_filter_nonempty, joinP_eq_inJoin_snd]
      have hmk : joinP (mkNewGroups num_experts names) = [] :=
        joinP_nil_of_all_nil _ (mkNewGroups_all_nil num_experts names)
      rw [hmk, List.append_nil] at hperm
      exact hperm

/-- C10, witness: one default group holding a norm parameter, an fp32
parameter, a MoE parameter and a bf16 parameter, with `num_experts = 2` and
one expert group name; the splitter scatters them into four singleton groups
and preserves the parameter multiset. -/
theorem c10_split_preserves_params_witness :
    ∃ kept app,
      ([⟨"default", [⟨false, false, false, false, "", 4⟩], [("wd", 1)], []⟩,
        ⟨"fp32", [⟨false, false, true, false, "", 2⟩], [("wd", 1)], []⟩,
        ⟨"norm", [⟨true, false, false, false, "", 1⟩], [("wd", 1)], ["norm"]⟩,
        ⟨"moe", [⟨false, false, false, true, "moe", 3⟩], [("wd", 1)], ["moe"]⟩]
          : List PGroup) = kept ++ app ∧
      kept.length = ([⟨"default", [⟨true, false, false, false, "", 1⟩,
          ⟨false, false, true, false, "", 2⟩,
          ⟨false, false, false, true, "moe", 3⟩,
          ⟨false, false, false, false, "", 4⟩], [("wd", 1)], []⟩] : List PGroup).length ∧
      (∀ g ∈ app, g.params ≠ []) ∧
      (inJoin [⟨"default", [⟨false, false, false, false, "", 4⟩], [("wd", 1)], []⟩,
        ⟨"fp32", [⟨false, false, true, false, "", 2⟩], [("wd", 1)], []⟩,
        ⟨"norm", [⟨true, false, false, false, "", 1⟩], [("wd", 1)], ["norm"]⟩,
        ⟨"moe", [⟨false, false, false, true, "moe", 3⟩], [("wd", 1)], ["moe"]⟩]).Perm
      (inJoin [⟨"default", [⟨true, false, false, false, "", 1⟩,
          ⟨false, false, true, false, "", 2⟩,
          ⟨false, false, false, true, "moe", 3⟩,
          ⟨false, false, false, false, "", 4⟩], [("wd", 1)], []⟩]) :=
  c10_split_preserves_params 2 ["moe"]
    [⟨"default", [⟨true, false, false, false, "", 1⟩,
      ⟨false, false, true, false, "", 2⟩,
      ⟨false, false, false, true, "moe", 3⟩,
      ⟨false, false, false, false, "", 4⟩], [("wd", 1)], []⟩]
    [⟨"default", [⟨false, false, false, false, "", 4⟩], [("wd", 1)], []⟩,
      ⟨"fp32", [⟨false, false, true, false, "", 2⟩], [("wd", 1)], []⟩,
      ⟨"norm", [⟨true, false, false, false, "", 1⟩], [("wd", 1)], ["norm"]⟩,
      ⟨"moe", [⟨false, false, false, true, "moe", 3⟩], [("wd", 1)], ["moe"]⟩]
    rfl
